import Mathlib

/-!
# Tycho indexer — bi-temporal versioned storage: a shallow embedding

This file embeds the core write path and the query functions of the
indexer's postgres storage layer (the versioning helpers of
`tycho-storage/src/postgres/versioning.rs`, the contract state gateway of
`src/storage/postgres/contract_state.rs` and the protocol gateway of
`tycho-indexer/src/storage/postgres/protocol.rs`) as executable Lean
definitions and settles the specification claims about them.

Conventions used throughout:

* timestamps (`NaiveDateTime`) are modelled as `Int`;
* database ids (`i64`), transaction indices and ordinals as `Int`;
* hashes, addresses, storage slots and byte values as `Nat` tokens (only
  identity and ordering of these matter to the verified properties);
* `HashMap` is modelled as an association list with overwrite-on-insert
  (`hmInsert`) and first-match lookup (`hmLookup`); `hmInsert` keeps keys
  unique, which matches `std::collections::HashMap` observationally;
* a Rust `expect`-style abort is modelled by `Option.none` (a function that
  can abort returns `Option`), a fallible operation returns
  `Except StorageError`; SQL queries are modelled row by row on list-valued
  tables, with `ORDER BY` as a stable merge sort and `DISTINCT ON` as
  first-row-per-key deduplication, exactly as postgres evaluates them.
-/

namespace Tycho

/-! ## HashMap model: association lists with overwrite-on-insert -/

/-- Model of `HashMap::insert`: replace the value of an existing key in
place, or append a fresh binding. Keys stay unique. -/
def hmInsert {K V : Type} [DecidableEq K] : List (K × V) → K → V → List (K × V)
  | [], k, v => [(k, v)]
  | (k', v') :: rest, k, v =>
    if k' = k then (k, v) :: rest else (k', v') :: hmInsert rest k v

/-- Model of `HashMap::get`. -/
def hmLookup {K V : Type} [DecidableEq K] (m : List (K × V)) (k : K) : Option V :=
  (m.find? (fun p => decide (p.1 = k))).map (fun p => p.2)

/-- Model of `collect::<HashMap<_, _>>()`: insert every pair in order
(later duplicates overwrite earlier ones). -/
def hmOfList {K V : Type} [DecidableEq K] (l : List (K × V)) : List (K × V) :=
  l.foldl (fun m p => hmInsert m p.1 p.2) []

/-- The value of the last binding for `k` in a plain pair list. -/
def lastVal {K V : Type} [DecidableEq K] : List (K × V) → K → Option V
  | [], _ => none
  | p :: rest, k =>
    match lastVal rest k with
    | some v => some v
    | none => if p.1 = k then some p.2 else none

theorem hmLookup_nil {K V : Type} [DecidableEq K] (k : K) :
    hmLookup ([] : List (K × V)) k = none := rfl

theorem hmLookup_insert_self {K V : Type} [DecidableEq K]
    (m : List (K × V)) (k : K) (v : V) : hmLookup (hmInsert m k v) k = some v := by
  induction m with
  | nil => simp [hmInsert, hmLookup, List.find?]
  | cons p rest ih =>
    by_cases h : p.1 = k
    · simp [hmInsert, h, hmLookup, List.find?]
    · obtain ⟨k', v'⟩ := p
      simp only [hmInsert]
      simp only at h
      rw [if_neg h]
      simpa [hmLookup, List.find?, h] using ih

theorem hmLookup_insert_ne {K V : Type} [DecidableEq K]
    (m : List (K × V)) (k k' : K) (v : V) (h : k' ≠ k) :
    hmLookup (hmInsert m k v) k' = hmLookup m k' := by
  induction m with
  | nil => simp [hmInsert, hmLookup, List.find?, Ne.symm h]
  | cons p rest ih =>
    obtain ⟨a, b⟩ := p
    by_cases ha : a = k
    · subst ha
      simp [hmInsert, hmLookup, List.find?, Ne.symm h]
    · simp only [hmInsert, if_neg ha]
      by_cases hk' : a = k'
      · subst hk'
        simp [hmLookup, List.find?]
      · simp only [hmLookup, List.find?] at ih ⊢
        simp [hk', ih]

theorem hmLookup_foldl_insert {K V : Type} [DecidableEq K]
    (l : List (K × V)) (m : List (K × V)) (k : K) :
    hmLookup (l.foldl (fun m p => hmInsert m p.1 p.2) m) k =
      match lastVal l k with
      | some v => some v
      | none => hmLookup m k := by
  induction l generalizing m with
  | nil => simp [lastVal]
  | cons p rest ih =>
    simp only [List.foldl_cons, lastVal]
    rw [ih]
    cases hr : lastVal rest k with
    | some v => simp
    | none =>
      by_cases hk : p.1 = k
      · subst hk
        simp [hmLookup_insert_self]
      · simp [hk, hmLookup_insert_ne _ _ _ _ (fun h => hk h.symm)]

theorem hmLookup_hmOfList {K V : Type} [DecidableEq K] (l : List (K × V)) (k : K) :
    hmLookup (hmOfList l) k = lastVal l k := by
  unfold hmOfList
  rw [hmLookup_foldl_insert]
  cases lastVal l k <;> simp [hmLookup]

/-! ## `tycho-storage/src/postgres/versioning.rs`

The versioning helpers are generic over a `VersionedRow` /
`DeltaVersionedRow` trait pair. We instantiate them at one concrete row
type carrying exactly the trait surface: an entity id, a `valid_from`
version, a secondary ordinal (part of the sort key), a mutable `valid_to`
and — for the delta variant — a current value and a mutable
`previous_value` (the value type of the slot instantiation is
`Option<&Bytes>`, hence `Option Nat` here). -/

structure VRow where
  entity_id : Int
  valid_from : Int
  ordinal : Int
  valid_to : Option Int
  value : Option Nat
  previous_value : Option Nat
deriving DecidableEq, Repr

/-- `StoredVersionedRow` / `StoredDeltaVersionedRow`: a currently valid row
on the db side, exposing a primary key, the entity id and a value. -/
structure StoredVRow where
  pk : Int
  entity_id : Int
  value : Option Nat
deriving DecidableEq, Repr

/-- The adjacent-pair loop of `set_versioning_attributes`
(`for i in 0..objects.len() - 1`): `cur` is `objects[i]`, the list is the
remaining tail. When `cur` and `next` share an entity id the current row's
`valid_to` is set to `next.get_valid_from()`; otherwise `next`'s entity and
`valid_from` are inserted into `db_updates` (threaded as `m`). -/
def svaGo (cur : VRow) : List VRow → List (Int × Int) →
    List VRow × List (Int × Int)
  | [], m => ([cur], m)
  | next :: rest, m =>
    if cur.entity_id = next.entity_id then
      let r := svaGo next rest m
      ({ cur with valid_to := some next.valid_from } :: r.1, r.2)
    else
      let r := svaGo next rest (hmInsert m next.entity_id next.valid_from)
      (cur :: r.1, r.2)

/-- `set_versioning_attributes` (versioning.rs:127). Returns the mutated
rows and the `db_updates` map. The function indexes `objects[0]`
unconditionally, so the empty slice aborts: modelled by `none`. -/
def set_versioning_attributes : List VRow → Option (List VRow × List (Int × Int))
  | [] => none
  | first :: rest => some (svaGo first rest (hmInsert [] first.entity_id first.valid_from))

/-- The adjacent-pair loop of `set_delta_versioning_attributes`: same as
`svaGo` but additionally copies the current row's value into the next
row's `previous_value` when the entity ids match (the mutated `next` is the
`cur` of the following iteration). -/
def svdGo (cur : VRow) : List VRow → List (Int × Int) →
    List VRow × List (Int × Int)
  | [], m => ([cur], m)
  | next :: rest, m =>
    if cur.entity_id = next.entity_id then
      let r := svdGo { next with previous_value := cur.value } rest m
      ({ cur with valid_to := some next.valid_from } :: r.1, r.2)
    else
      let r := svdGo next rest (hmInsert m next.entity_id next.valid_from)
      (cur :: r.1, r.2)

/-- `set_delta_versioning_attributes` (versioning.rs:152). -/
def set_delta_versioning_attributes : List VRow → Option (List VRow × List (Int × Int))
  | [] => none
  | first :: rest => some (svdGo first rest (hmInsert [] first.entity_id first.valid_from))

/-- `apply_versioning` (versioning.rs:228). The database round trips are
abstracted by `latest_versions_by_ids`; the result records the mutated new
rows, whether the latest-version query ran, and whether the batched
`valid_to` UPDATE ran. `none` models an abort inside the helper. -/
def apply_versioning (new_data : List VRow)
    (latest_versions_by_ids : List Int → List StoredVRow) :
    Option (List VRow × Bool × Bool) :=
  if new_data.isEmpty then some (new_data, false, false)
  else
    match set_versioning_attributes new_data with
    | none => none
    | some (rows, end_versions) =>
      let db_rows := latest_versions_by_ids (end_versions.map (fun p => p.1))
      some (rows, true, !db_rows.isEmpty)

/-- The backfill loop of `apply_delta_versioning`: for each db row, find
the first new entry with the same entity id and set its `previous_value`
from the stored row's value. -/
def setFirstPrev : List VRow → Int → Option Nat → List VRow
  | [], _, _ => []
  | r :: rest, eid, v =>
    if r.entity_id = eid then { r with previous_value := v } :: rest
    else r :: setFirstPrev rest eid v

/-- `apply_delta_versioning` (versioning.rs:268). -/
def apply_delta_versioning (new_data : List VRow)
    (latest_versions_by_ids : List Int → List StoredVRow) :
    Option (List VRow × Bool × Bool) :=
  if new_data.isEmpty then some (new_data, false, false)
  else
    match set_delta_versioning_attributes new_data with
    | none => none
    | some (rows, end_versions) =>
      let db_rows := latest_versions_by_ids (end_versions.map (fun p => p.1))
      let rows := db_rows.foldl (fun acc r => setFirstPrev acc r.entity_id r.value) rows
      some (rows, true, !db_rows.isEmpty)

/-- The sort key `(entity_id, valid_from, ordinal)` of a new row, compared
lexicographically: the precondition of `apply_versioning`. -/
def vrowKeyLe (a b : VRow) : Prop :=
  a.entity_id < b.entity_id ∨
    (a.entity_id = b.entity_id ∧
      (a.valid_from < b.valid_from ∨
        (a.valid_from = b.valid_from ∧ a.ordinal ≤ b.ordinal)))

instance : DecidablePred fun p : VRow × VRow => vrowKeyLe p.1 p.2 := by
  intro p
  unfold vrowKeyLe
  infer_instance

instance (a b : VRow) : Decidable (vrowKeyLe a b) := by
  unfold vrowKeyLe
  infer_instance

/-- The earliest `valid_from` among the rows of entity `e` (none if the
entity does not occur): the value the versioning contract promises in the
returned update map. -/
def minVF : List VRow → Int → Option Int
  | [], _ => none
  | r :: rest, e =>
    if r.entity_id = e then
      match minVF rest e with
      | none => some r.valid_from
      | some m => some (min r.valid_from m)
    else minVF rest e

/-- The heads of the entity groups strictly after the first group: the
entries inserted into `db_updates` by the pair loop. -/
def groupHeads (cur : VRow) : List VRow → List (Int × Int)
  | [] => []
  | next :: rest =>
    if cur.entity_id = next.entity_id then groupHeads next rest
    else (next.entity_id, next.valid_from) :: groupHeads next rest

theorem svaGo_fst_length (rest : List VRow) :
    ∀ cur m, ((svaGo cur rest m).1).length = rest.length + 1 := by
  induction rest with
  | nil => intro cur m; simp [svaGo]
  | cons next rest ih =>
    intro cur m
    by_cases h : cur.entity_id = next.entity_id <;> simp [svaGo, h, ih]

theorem svaGo_fst_get (rest : List VRow) :
    ∀ cur m i, ((svaGo cur rest m).1)[i]? =
      match (cur :: rest)[i]?, (cur :: rest)[i+1]? with
      | some a, some b =>
        some (if a.entity_id = b.entity_id then { a with valid_to := some b.valid_from } else a)
      | some a, none => some a
      | none, _ => none := by
  induction rest with
  | nil =>
    intro cur m i
    match i with
    | 0 => simp [svaGo]
    | i + 1 => simp [svaGo]
  | cons next rest ih =>
    intro cur m i
    match i with
    | 0 =>
      by_cases h : cur.entity_id = next.entity_id <;> simp [svaGo, h]
    | i + 1 =>
      by_cases h : cur.entity_id = next.entity_id <;>
        simpa [svaGo, h] using ih next _ i

theorem svaGo_snd (rest : List VRow) :
    ∀ cur m, (svaGo cur rest m).2 =
      (groupHeads cur rest).foldl (fun acc p => hmInsert acc p.1 p.2) m := by
  induction rest with
  | nil => intro cur m; simp [svaGo, groupHeads]
  | cons next rest ih =>
    intro cur m
    by_cases h : cur.entity_id = next.entity_id <;> simp [svaGo, groupHeads, h, ih]

theorem vrowKeyLe_same_entity_vf_le (a b : VRow) (h : vrowKeyLe a b)
    (he : b.entity_id = a.entity_id) : a.valid_from ≤ b.valid_from := by
  unfold vrowKeyLe at h
  rcases h with h1 | ⟨h1, h2 | ⟨h2, h3⟩⟩
  · omega
  · omega
  · omega

theorem minVF_attained (l : List VRow) (e : Int) :
    ∀ m, minVF l e = some m → ∃ r ∈ l, r.entity_id = e ∧ m = r.valid_from := by
  induction l with
  | nil => intro m h; simp [minVF] at h
  | cons x l ih =>
    intro m h
    by_cases hx : x.entity_id = e
    · simp only [minVF, if_pos hx] at h
      cases hl : minVF l e with
      | none =>
        rw [hl] at h
        exact ⟨x, by simp, hx, by simpa using h.symm⟩
      | some m' =>
        rw [hl] at h
        have hm : m = min x.valid_from m' := by simpa using h.symm
        rcases le_total x.valid_from m' with hle | hle
        · refine ⟨x, by simp, hx, ?_⟩
          rw [min_eq_left hle] at hm
          exact hm
        · obtain ⟨r, hr, hre, hrm⟩ := ih m' hl
          refine ⟨r, by simp [hr], hre, ?_⟩
          rw [min_eq_right hle] at hm
          exact hm.trans hrm
    · simp only [minVF, if_neg hx] at h
      obtain ⟨r, hr, hre, hrm⟩ := ih m h
      exact ⟨r, by simp [hr], hre, hrm⟩

theorem minVF_eq_head (x : VRow) (l : List VRow) (e : Int)
    (hx : x.entity_id = e)
    (hmin : ∀ r ∈ l, r.entity_id = e → x.valid_from ≤ r.valid_from) :
    minVF (x :: l) e = some x.valid_from := by
  simp only [minVF, if_pos hx]
  cases hl : minVF l e with
  | none => rfl
  | some m =>
    obtain ⟨r, hr, hre, hrm⟩ := minVF_attained l e m hl
    have hle := hmin r hr hre
    have hxm : x.valid_from ≤ m := by omega
    simp [min_eq_left hxm]

theorem minVF_absent (l : List VRow) (e : Int)
    (h : ∀ r ∈ l, r.entity_id ≠ e) : minVF l e = none := by
  induction l with
  | nil => rfl
  | cons x l ih =>
    have hx := h x (by simp)
    simp only [minVF, if_neg hx]
    exact ih (fun r hr => h r (by simp [hr]))

theorem groupHeads_entity_gt (rest : List VRow) :
    ∀ cur, (cur :: rest).Pairwise vrowKeyLe →
      ∀ p ∈ groupHeads cur rest, cur.entity_id < p.1 := by
  induction rest with
  | nil => intro cur _ p hp; simp [groupHeads] at hp
  | cons next rest ih =>
    intro cur hs p hp
    have hcurnext : vrowKeyLe cur next := (List.pairwise_cons.mp hs).1 next (by simp)
    have htail : (next :: rest).Pairwise vrowKeyLe := (List.pairwise_cons.mp hs).2
    by_cases h : cur.entity_id = next.entity_id
    · rw [groupHeads, if_pos h] at hp
      have := ih next htail p hp
      omega
    · rw [groupHeads, if_neg h] at hp
      have hlt : cur.entity_id < next.entity_id := by
        rcases hcurnext with h1 | ⟨h1, _⟩
        · exact h1
        · exact absurd h1 h
      rcases List.mem_cons.mp hp with rfl | hp'
      · exact hlt
      · have := ih next htail p hp'
        omega

theorem groupHeads_covers (rest : List VRow) :
    ∀ cur, ∀ r ∈ rest,
      r.entity_id = cur.entity_id ∨ r.entity_id ∈ (groupHeads cur rest).map (fun p => p.1) := by
  induction rest with
  | nil => intro cur r hr; simp at hr
  | cons next rest ih =>
    intro cur r hr
    by_cases h : cur.entity_id = next.entity_id
    · rw [groupHeads, if_pos h]
      rcases List.mem_cons.mp hr with rfl | hr'
      · exact Or.inl h.symm
      · rcases ih next r hr' with h' | h'
        · exact Or.inl (h'.trans h.symm)
        · exact Or.inr h'
    · rw [groupHeads, if_neg h]
      rcases List.mem_cons.mp hr with rfl | hr'
      · exact Or.inr (by simp)
      · rcases ih next r hr' with h' | h'
        · exact Or.inr (by simp [h'])
        · exact Or.inr (by simp only [List.map_cons, List.mem_cons]; exact Or.inr h')

theorem groupHeads_min (rest : List VRow) :
    ∀ cur, (cur :: rest).Pairwise vrowKeyLe →
      ∀ p ∈ groupHeads cur rest, minVF (cur :: rest) p.1 = some p.2 := by
  induction rest with
  | nil => intro cur _ p hp; simp [groupHeads] at hp
  | cons next rest ih =>
    intro cur hs p hp
    have htail : (next :: rest).Pairwise vrowKeyLe := (List.pairwise_cons.mp hs).2
    have hgt := groupHeads_entity_gt (next :: rest) cur hs p hp
    have hne : cur.entity_id ≠ p.1 := by omega
    by_cases h : cur.entity_id = next.entity_id
    · rw [groupHeads, if_pos h] at hp
      have := ih next htail p hp
      rw [minVF, if_neg hne]
      exact this
    · rw [groupHeads, if_neg h] at hp
      rcases List.mem_cons.mp hp with rfl | hp'
      · rw [minVF, if_neg hne]
        refine minVF_eq_head next rest next.entity_id rfl ?_
        intro r hr hre
        exact vrowKeyLe_same_entity_vf_le next r ((List.pairwise_cons.mp htail).1 r hr) hre
      · rw [minVF, if_neg hne]
        exact ih next htail p hp'

theorem groupHeads_keys_sorted (rest : List VRow) :
    ∀ cur, (cur :: rest).Pairwise vrowKeyLe →
      (groupHeads cur rest).Pairwise (fun p q => p.1 < q.1) := by
  induction rest with
  | nil => intro cur _; simp [groupHeads]
  | cons next rest ih =>
    intro cur hs
    have htail : (next :: rest).Pairwise vrowKeyLe := (List.pairwise_cons.mp hs).2
    by_cases h : cur.entity_id = next.entity_id
    · rw [groupHeads, if_pos h]
      exact ih next htail
    · rw [groupHeads, if_neg h]
      refine List.pairwise_cons.mpr ⟨?_, ih next htail⟩
      intro q hq
      exact groupHeads_entity_gt rest next htail q hq

theorem lastVal_absent {K V : Type} [DecidableEq K] (g : List (K × V)) (e : K)
    (h : ∀ p ∈ g, p.1 ≠ e) : lastVal g e = none := by
  induction g with
  | nil => rfl
  | cons p g ih =>
    have hp := h p (by simp)
    simp only [lastVal, ih (fun q hq => h q (by simp [hq])), if_neg hp]

theorem lastVal_unique (g : List (Int × Int)) (e : Int) (v : Int)
    (hs : g.Pairwise (fun p q => p.1 < q.1)) (hmem : (e, v) ∈ g) :
    lastVal g e = some v := by
  induction g with
  | nil => simp at hmem
  | cons p g ih =>
    rcases List.mem_cons.mp hmem with rfl | hmem'
    · have : ∀ q ∈ g, q.1 ≠ e := by
        intro q hq
        have := (List.pairwise_cons.mp hs).1 q hq
        omega
      simp [lastVal, lastVal_absent g e this]
    · simp only [lastVal, ih (List.pairwise_cons.mp hs).2 hmem']

/-- C9: for the empty input slice, `apply_versioning` and
`apply_delta_versioning` return `Ok` without performing any database query
or update; the internal helpers `set_versioning_attributes` and
`set_delta_versioning_attributes` index the first element of their slice
unconditionally (they abort on the empty slice), and through the two
public entry points this abort is unreachable for every input. -/
theorem apply_versioning_empty_safe :
    (∀ f, apply_versioning [] f = some ([], false, false)) ∧
    (∀ f, apply_delta_versioning [] f = some ([], false, false)) ∧
    set_versioning_attributes [] = none ∧
    set_delta_versioning_attributes [] = none ∧
    (∀ data f, (apply_versioning data f).isSome = true) ∧
    (∀ data f, (apply_delta_versioning data f).isSome = true) := by
  refine ⟨fun f => rfl, fun f => rfl, rfl, rfl, ?_, ?_⟩
  · intro data f
    match data with
    | [] => rfl
    | first :: rest => simp [apply_versioning, set_versioning_attributes]
  · intro data f
    match data with
    | [] => rfl
    | first :: rest => simp [apply_delta_versioning, set_delta_versioning_attributes]

/-- C8: on input sorted ascending by `(entity_id, valid_from, ordinal)`,
`set_versioning_attributes` (as invoked by `apply_versioning` on a
non-empty slice) closes each row followed by a row of the same entity with
the follower's `valid_from`, leaves the remaining rows — in particular the
last row of each entity group — untouched, and returns a map sending every
entity id present to the earliest `valid_from` among that entity's rows. -/
theorem set_versioning_attributes_spec (objects out : List VRow)
    (upds : List (Int × Int))
    (hsorted : objects.Pairwise vrowKeyLe)
    (h : set_versioning_attributes objects = some (out, upds)) :
    out.length = objects.length ∧
    (∀ i a b, objects[i]? = some a → objects[i + 1]? = some b →
      out[i]? = some (if a.entity_id = b.entity_id
        then { a with valid_to := some b.valid_from } else a)) ∧
    (∀ i a, objects[i]? = some a → objects[i + 1]? = none → out[i]? = some a) ∧
    (∀ e, hmLookup upds e = minVF objects e) := by
  match objects, h with
  | first :: rest, h =>
    simp only [set_versioning_attributes, Option.some.injEq] at h
    have hout : out = (svaGo first rest (hmInsert [] first.entity_id first.valid_from)).1 := by
      rw [h]
    have hupds : upds = (svaGo first rest (hmInsert [] first.entity_id first.valid_from)).2 := by
      rw [h]
    refine ⟨?_, ?_, ?_, ?_⟩
    · rw [hout, svaGo_fst_length]
      simp
    · intro i a b ha hb
      rw [hout, svaGo_fst_get, ha, hb]
    · intro i a ha hb
      rw [hout, svaGo_fst_get, ha, hb]
    · intro e
      rw [hupds, svaGo_snd, hmLookup_foldl_insert]
      by_cases he : e = first.entity_id
      · have habs : lastVal (groupHeads first rest) e = none := by
          refine lastVal_absent _ _ ?_
          intro p hp
          have := groupHeads_entity_gt rest first hsorted p hp
          omega
        rw [habs]
        have hlook : hmLookup (hmInsert [] first.entity_id first.valid_from) e =
            some first.valid_from := by
          rw [he]
          exact hmLookup_insert_self [] first.entity_id first.valid_from
        rw [hlook]
        show some first.valid_from = minVF (first :: rest) e
        refine (minVF_eq_head first rest e he.symm ?_).symm
        intro r hr hre
        refine vrowKeyLe_same_entity_vf_le first r ((List.pairwise_cons.mp hsorted).1 r hr) ?_
        rw [hre, he]
      · by_cases hin : e ∈ (groupHeads first rest).map (fun p => p.1)
        · obtain ⟨p, hp, hpe⟩ := List.mem_map.mp hin
          obtain ⟨pe, pv⟩ := p
          simp only at hpe
          subst hpe
          have hlast : lastVal (groupHeads first rest) pe = some pv :=
            lastVal_unique _ _ _ (groupHeads_keys_sorted rest first hsorted) hp
          rw [hlast]
          show some pv = minVF (first :: rest) pe
          have := groupHeads_min rest first hsorted (pe, pv) hp
          simp only at this
          exact this.symm
        · have habs : lastVal (groupHeads first rest) e = none := by
            refine lastVal_absent _ _ ?_
            intro p hp hpe
            exact hin (List.mem_map.mpr ⟨p, hp, hpe⟩)
          rw [habs]
          have hlook : hmLookup (hmInsert [] first.entity_id first.valid_from) e = none := by
            rw [hmLookup_insert_ne [] first.entity_id e first.valid_from he]
            rfl
          rw [hlook]
          show (none : Option Int) = minVF (first :: rest) e
          refine (minVF_absent _ _ ?_).symm
          intro r hr
          rcases List.mem_cons.mp hr with rfl | hr'
          · exact fun hc => he hc.symm
          · rcases groupHeads_covers rest first r hr' with h' | h'
            · intro hc
              exact he (hc ▸ h')
            · intro hc
              exact hin (hc ▸ h')

/-- Concrete sorted input for the versioning-attribute witness: two rows of
entity 1 and one row of entity 2. -/
def c8rows : List VRow :=
  [⟨1, 10, 0, none, some 5, none⟩, ⟨1, 20, 1, none, some 6, none⟩,
   ⟨2, 15, 0, none, none, none⟩]

/-- Expected output rows for `c8rows`. -/
def c8out : List VRow :=
  [⟨1, 10, 0, some 20, some 5, none⟩, ⟨1, 20, 1, none, some 6, none⟩,
   ⟨2, 15, 0, none, none, none⟩]

/-- Expected update map for `c8rows`. -/
def c8upds : List (Int × Int) := [(1, 10), (2, 15)]

/-- Witness for C8: the hypotheses of `set_versioning_attributes_spec` hold
at a concrete sorted input and the returned map sends both entities to
their earliest `valid_from`. -/
theorem set_versioning_attributes_spec_witness :
    c8rows.Pairwise vrowKeyLe ∧
    set_versioning_attributes c8rows = some (c8out, c8upds) ∧
    (∀ e, hmLookup c8upds e = minVF c8rows e) :=
  ⟨by decide, by decide,
    (set_versioning_attributes_spec c8rows c8out c8upds (by decide) (by decide)).2.2.2⟩

/-! ## Shared data model of the gateway tables

One database state value carries every table touched by the embedded
gateway operations. Column types follow §3 of the data model: byte-string
valued columns (hashes, addresses, slots, values, code) are `Nat` tokens,
timestamps are `Int`, ids are `Int`. Columns never read by any embedded
operation (`inserted_ts`, `modified_ts`, `from`, `to`, autogenerated
primary keys of versioned rows, `balance_float`) are omitted. -/

/-- `models::Chain`. -/
inductive Chain where
  | ethereum
  | starknet
deriving DecidableEq, Repr

/-- A row of the `chain` dimension table. -/
structure ChainRow where
  id : Int
  name : Chain
deriving DecidableEq, Repr

/-- A row of the `block` table. -/
structure BlockRow where
  id : Int
  hash : Nat
  parent_hash : Nat
  chain_id : Int
  main : Bool
  number : Int
  ts : Int
deriving DecidableEq, Repr

/-- A row of the `transaction` table. -/
structure TxRow where
  id : Int
  hash : Nat
  block_id : Int
  index : Int
deriving DecidableEq, Repr

/-- A row of the `account` table. -/
structure AccountRow where
  id : Int
  chain_id : Int
  address : Nat
  title : String
  creation_tx : Option Int
  created_at : Option Int
  deletion_tx : Option Int
  deleted_at : Option Int
deriving DecidableEq, Repr

/-- A row of the `account_balance` table. -/
structure BalanceRow where
  account_id : Int
  balance : Nat
  modify_tx : Int
  valid_from : Int
  valid_to : Option Int
deriving DecidableEq, Repr

/-- A row of the `contract_code` table. -/
structure CodeRow where
  account_id : Int
  code : Nat
  hash : Nat
  modify_tx : Int
  valid_from : Int
  valid_to : Option Int
deriving DecidableEq, Repr

/-- A row of the `contract_storage` table. -/
structure StorageRow where
  account_id : Int
  slot : Nat
  value : Option Nat
  previous_value : Option Nat
  modify_tx : Int
  ordinal : Int
  valid_from : Int
  valid_to : Option Int
deriving DecidableEq, Repr

/-- A row of the `protocol_component` table. -/
structure ProtocolComponentRow where
  id : Int
  chain_id : Int
  external_id : String
  creation_tx : Option Int
  deleted_at : Option Int
deriving DecidableEq, Repr

/-- A row of the `protocol_state` table. -/
structure ProtocolStateRow where
  protocol_component_id : Int
  attribute_name : String
  attribute_value : Nat
  previous_value : Option Nat
  modify_tx : Int
  valid_from : Int
  valid_to : Option Int
deriving DecidableEq, Repr

/-- A row of the `component_balance` table. -/
structure ComponentBalanceRow where
  protocol_component_id : Int
  token_id : Int
  new_balance : Nat
  previous_value : Nat
  modify_tx : Int
  valid_from : Int
  valid_to : Option Int
deriving DecidableEq, Repr

/-- A row of the `protocol_calls_contract` link table (the component to
contract link); only its `valid_to` column is touched by the embedded
operations, the identifying columns are kept as an opaque id. -/
structure ProtocolCallsContractRow where
  id : Int
  valid_to : Option Int
deriving DecidableEq, Repr

/-- The database state: one list per table. -/
structure DbState where
  chains : List ChainRow
  blocks : List BlockRow
  transactions : List TxRow
  accounts : List AccountRow
  account_balances : List BalanceRow
  contract_codes : List CodeRow
  contract_storage : List StorageRow
  protocol_components : List ProtocolComponentRow
  protocol_states : List ProtocolStateRow
  component_balances : List ComponentBalanceRow
  protocol_calls_contract : List ProtocolCallsContractRow
deriving DecidableEq, Repr

/-- `storage::StorageError` (the variants the embedded operations build). -/
inductive StorageError where
  | notFound (entity : String) (id : String)
  | noRelatedEntity (missing : String) (referencing : String) (id : String)
  | decodeError (msg : String)
  | unsupported (msg : String)
  | unexpected (msg : String)
deriving DecidableEq, Repr

/-- `storage::BlockIdentifier` as matched by `coerce_block_or_ts`
(contract_state.rs 874): a hash or a `(chain, number)` pair. -/
inductive BlockIdentifier where
  | hash (h : Nat)
  | number (chain : Chain) (no : Int)
deriving DecidableEq, Repr

/-- `storage::BlockOrTimestamp`. -/
inductive BlockOrTimestamp where
  | block (b : BlockIdentifier)
  | timestamp (ts : Int)
deriving DecidableEq, Repr

/-- `storage::VersionKind`; only `Last` is supported by `version_to_ts`. -/
inductive VersionKind where
  | last
  | first
deriving DecidableEq, Repr

/-- `storage::Version(BlockOrTimestamp, VersionKind)`. -/
structure Version where
  v : BlockOrTimestamp
  kind : VersionKind
deriving DecidableEq, Repr

/-- `orm::Block::by_hash`: first block row with the given hash. -/
def Block_by_hash (db : DbState) (h : Nat) : Option BlockRow :=
  db.blocks.find? (fun b => decide (b.hash = h))

/-- `orm::Block::by_number`: first block row with the given number on the
chain of the given name (join to the `chain` dimension table). -/
def Block_by_number (db : DbState) (chain : Chain) (no : Int) : Option BlockRow :=
  db.blocks.find? (fun b => decide (b.number = no) &&
    (db.chains.any (fun c => decide (c.id = b.chain_id) && decide (c.name = chain))))

/-- `orm::Block::by_id` restricted to the identifiers `coerce_block_or_ts`
handles. -/
def Block_by_id (db : DbState) : BlockIdentifier → Option BlockRow
  | .hash h => Block_by_hash db h
  | .number chain no => Block_by_number db chain no

/-- `orm::Transaction::by_hash`. -/
def Transaction_by_hash (db : DbState) (h : Nat) : Option TxRow :=
  db.transactions.find? (fun t => decide (t.hash = h))

/-- `orm::Account::by_id`: first account row with the contract's address
on the chain of the contract id (join to `chain` on the name). -/
def Account_by_id (db : DbState) (chain : Chain) (address : Nat) : Option AccountRow :=
  db.accounts.find? (fun a => decide (a.address = address) &&
    (db.chains.any (fun c => decide (c.id = a.chain_id) && decide (c.name = chain))))

/-- `coerce_block_or_ts` (contract_state.rs 874): `None` resolves to
`now()`, a block identifier to the block's timestamp (`NotFound` if the
block is absent), a timestamp to itself. -/
def coerce_block_or_ts (db : DbState) (now : Int) :
    Option BlockOrTimestamp → Except StorageError Int
  | none => .ok now
  | some (.block (.hash h)) =>
    match Block_by_hash db h with
    | some b => .ok b.ts
    | none => .error (.notFound "Block" (toString h))
  | some (.block (.number chain no)) =>
    match Block_by_number db chain no with
    | some b => .ok b.ts
    | none => .error (.notFound "Block" (toString no))
  | some (.timestamp ts) => .ok ts

/-- `version_to_ts` (contract_state.rs 860): reject any version kind other
than `Last` as `Unsupported`, then coerce. -/
def version_to_ts (db : DbState) (now : Int) :
    Option Version → Except StorageError Int
  | some ver =>
    if ver.kind ≠ VersionKind.last then
      .error (.unsupported "Unsupported version kind")
    else coerce_block_or_ts db now (some ver.v)
  | none => .ok now

/-! ## `parse_u256_slot_entry` and `set_store` (contract_state.rs 825, 98)

These operate on raw byte strings, modelled as lists of bytes. -/

/-- `U256::from_big_endian` on a byte slice. -/
def u256_from_big_endian (bytes : List Nat) : Nat :=
  bytes.foldl (fun acc b => acc * 256 + b) 0

/-- `parse_u256_slot_entry` (contract_state.rs 825): the slot key must be
exactly 32 bytes and a present slot value must be exactly 32 bytes; a
missing (`None`) slot value decodes to the `U256` zero. -/
def parse_u256_slot_entry (raw_key : List Nat) (raw_val : Option (List Nat)) :
    Except StorageError (Nat × Nat) :=
  if raw_key.length ≠ 32 then
    .error (.decodeError "Invalid byte length for U256 in slot key!")
  else
    match raw_val with
    | some val =>
      if val.length ≠ 32 then
        .error (.decodeError "Invalid byte length for U256 in slot value!")
      else .ok (u256_from_big_endian raw_key, u256_from_big_endian val)
    | none => .ok (u256_from_big_endian raw_key, 0)

/-- `set_store` (contract_state.rs 98): decode every stored slot entry,
failing on the first decode error, and collect the map. -/
def set_store (store : List (List Nat × Option (List Nat))) :
    Except StorageError (List (Nat × Nat)) :=
  (store.mapM (fun p => parse_u256_slot_entry p.1 p.2)).map hmOfList

/-- C10: `parse_u256_slot_entry` returns a `DecodeError` exactly when the
slot key is not 32 bytes long or a present slot value is not 32 bytes
long; otherwise it succeeds, and a missing slot value decodes to zero. -/
theorem parse_u256_slot_entry_spec (raw_key : List Nat) (raw_val : Option (List Nat)) :
    ((∃ msg, parse_u256_slot_entry raw_key raw_val = .error (.decodeError msg)) ↔
      (raw_key.length ≠ 32 ∨ ∃ val, raw_val = some val ∧ val.length ≠ 32)) ∧
    (raw_key.length = 32 → (∀ val, raw_val = some val → val.length = 32) →
      ∃ out, parse_u256_slot_entry raw_key raw_val = .ok out) ∧
    (raw_key.length = 32 → raw_val = none →
      parse_u256_slot_entry raw_key raw_val =
        .ok (u256_from_big_endian raw_key, 0)) := by
  refine ⟨⟨?_, ?_⟩, ?_, ?_⟩
  · rintro ⟨msg, hmsg⟩
    by_cases hk : raw_key.length = 32
    · cases raw_val with
      | none => simp [parse_u256_slot_entry, hk] at hmsg
      | some val =>
        by_cases hv : val.length = 32
        · simp [parse_u256_slot_entry, hk, hv] at hmsg
        · exact Or.inr ⟨val, rfl, hv⟩
    · exact Or.inl hk
  · rintro (hk | ⟨val, rfl, hv⟩)
    · exact ⟨"Invalid byte length for U256 in slot key!", by simp [parse_u256_slot_entry, hk]⟩
    · by_cases hk : raw_key.length = 32
      · exact ⟨"Invalid byte length for U256 in slot value!",
          by simp [parse_u256_slot_entry, hk, hv]⟩
      · exact ⟨"Invalid byte length for U256 in slot key!", by simp [parse_u256_slot_entry, hk]⟩
  · intro hk hv
    cases raw_val with
    | none => exact ⟨(u256_from_big_endian raw_key, 0), by simp [parse_u256_slot_entry, hk]⟩
    | some val =>
      have := hv val rfl
      exact ⟨(u256_from_big_endian raw_key, u256_from_big_endian val),
        by simp [parse_u256_slot_entry, hk, this]⟩
  · intro hk hn
    subst hn
    simp [parse_u256_slot_entry, hk]

/-- Witness for C10: a well-formed 32-byte key with a missing value
decodes to `(key, 0)`, via `parse_u256_slot_entry_spec`. -/
theorem parse_u256_slot_entry_spec_witness :
    (List.replicate 32 7).length = 32 ∧
    parse_u256_slot_entry (List.replicate 32 7) none =
      .ok (u256_from_big_endian (List.replicate 32 7), 0) :=
  ⟨by decide,
    (parse_u256_slot_entry_spec (List.replicate 32 7) none).2.2 (by decide) rfl⟩

/-! ## `upsert_slots` (contract_state.rs 532) -/

/-- A per-contract slot map in a change set. -/
abbrev ContractStoreChanges := List (Nat × Option Nat)

/-- `SlotChangeSet`: a sequence of `(tx_hash, {address → {slot → value}})`. -/
abbrev SlotChangeSet := List (Nat × List (Nat × ContractStoreChanges))

/-- The batch query resolving tx hashes to `(tx_id, tx.index, block.ts)`:
`transaction` joined to `block`, filtered to the given hashes. -/
def tx_ids_query (db : DbState) (hashes : List Nat) : List (Nat × (Int × Int × Int)) :=
  (db.transactions.flatMap (fun t =>
    (db.blocks.filter (fun b => decide (b.id = t.block_id))).map
      (fun b => (t.hash, (t.id, t.index, b.ts))))).filter
    (fun p => hashes.contains p.1)

/-- The batch query resolving addresses to account ids. -/
def account_ids_query (db : DbState) (addrs : List Nat) : List (Nat × Int) :=
  (db.accounts.filter (fun a => addrs.contains a.address)).map (fun a => (a.address, a.id))

/-- The inner loop of `upsert_slots` over one transaction's
`{address → storage}` map: resolve the account and flatten the slots into
`NewSlot` rows (`ordinal = tx.index`, `valid_from = block.ts`; the
`NewSlot` insert carries neither `valid_to` nor `previous_value`, both
columns default to null). -/
def upsertRowsForContract (account_ids : List (Nat × Int))
    (modify_tx tx_index block_ts : Int) :
    List (Nat × ContractStoreChanges) → Except StorageError (List StorageRow)
  | [] => .ok []
  | (address, storage) :: rest =>
    match hmLookup account_ids address with
    | none => .error (.noRelatedEntity "Account" "ContractStorage" (toString address))
    | some account_id =>
      match upsertRowsForContract account_ids modify_tx tx_index block_ts rest with
      | .error e => .error e
      | .ok tail =>
        .ok ((storage.map (fun p =>
          ({ account_id := account_id, slot := p.1, value := p.2, previous_value := none,
             modify_tx := modify_tx, ordinal := tx_index, valid_from := block_ts,
             valid_to := none } : StorageRow))) ++ tail)

/-- The outer loop of `upsert_slots` over the change set: resolve each tx
hash and flatten. -/
def upsertRows (tx_ids : List (Nat × (Int × Int × Int))) (account_ids : List (Nat × Int)) :
    SlotChangeSet → Except StorageError (List StorageRow)
  | [] => .ok []
  | (txhash, contract_storage) :: rest =>
    match hmLookup tx_ids txhash with
    | none => .error (.noRelatedEntity "Transaction" "ContractStorage" (toString txhash))
    | some (modify_tx, tx_index, block_ts) =>
      match upsertRowsForContract account_ids modify_tx tx_index block_ts contract_storage with
      | .error e => .error e
      | .ok entries =>
        match upsertRows tx_ids account_ids rest with
        | .error e => .error e
        | .ok tail => .ok (entries ++ tail)

/-- `upsert_slots` (contract_state.rs 532): resolve the tx hashes and
addresses in two batch queries, flatten the change set into new storage
rows and insert them. No other table is touched and no existing
`contract_storage` row is updated. -/
def upsert_slots (db : DbState) (slots : SlotChangeSet) : Except StorageError DbState :=
  let tx_ids := hmOfList (tx_ids_query db (slots.map (fun p => p.1)))
  let account_ids := hmOfList
    (account_ids_query db (slots.flatMap (fun p => p.2.map (fun q => q.1))))
  match upsertRows tx_ids account_ids slots with
  | .error e => .error e
  | .ok new_entries =>
    .ok { db with contract_storage := db.contract_storage ++ new_entries }

/-- The point-in-time validity predicate of invariant I1:
`valid_from ≤ T ∧ (valid_to > T ∨ valid_to is null)`. -/
def validAtB (valid_from : Int) (valid_to : Option Int) (t : Int) : Bool :=
  decide (valid_from ≤ t) &&
    (match valid_to with
     | none => true
     | some v => decide (t < v))

theorem upsertRowsForContract_open (account_ids : List (Nat × Int))
    (modify_tx tx_index block_ts : Int) :
    ∀ l out, upsertRowsForContract account_ids modify_tx tx_index block_ts l = .ok out →
      ∀ r ∈ out, r.valid_to = none ∧ r.previous_value = none := by
  intro l
  induction l with
  | nil =>
    intro out h r hr
    simp only [upsertRowsForContract, Except.ok.injEq] at h
    subst h
    simp at hr
  | cons p rest ih =>
    intro out h r hr
    obtain ⟨address, storage⟩ := p
    simp only [upsertRowsForContract] at h
    cases hl : hmLookup account_ids address with
    | none => simp [hl] at h
    | some account_id =>
      cases ht : upsertRowsForContract account_ids modify_tx tx_index block_ts rest with
      | error e => simp [hl, ht] at h
      | ok tail =>
        simp only [hl, ht, Except.ok.injEq] at h
        subst h
        rcases List.mem_append.mp hr with hmem | hmem
        · obtain ⟨q, _, hq⟩ := List.mem_map.mp hmem
          subst hq
          exact ⟨rfl, rfl⟩
        · exact ih tail ht r hmem

theorem upsertRows_open (tx_ids : List (Nat × (Int × Int × Int)))
    (account_ids : List (Nat × Int)) :
    ∀ slots out, upsertRows tx_ids account_ids slots = .ok out →
      ∀ r ∈ out, r.valid_to = none ∧ r.previous_value = none := by
  intro slots
  induction slots with
  | nil =>
    intro out h r hr
    simp only [upsertRows, Except.ok.injEq] at h
    subst h
    simp at hr
  | cons p rest ih =>
    intro out h r hr
    obtain ⟨txhash, contract_storage⟩ := p
    simp only [upsertRows] at h
    cases hl : hmLookup tx_ids txhash with
    | none => simp [hl] at h
    | some v =>
      obtain ⟨modify_tx, tx_index, block_ts⟩ := v
      cases he : upsertRowsForContract account_ids modify_tx tx_index block_ts contract_storage with
      | error e => simp [hl, he] at h
      | ok entries =>
        cases ht : upsertRows tx_ids account_ids rest with
        | error e => simp [hl, he, ht] at h
        | ok tail =>
          simp only [hl, he, ht, Except.ok.injEq] at h
          subst h
          rcases List.mem_append.mp hr with hmem | hmem
          · exact upsertRowsForContract_open account_ids modify_tx tx_index block_ts
              contract_storage entries he r hmem
          · exact ih tail ht r hmem

/-- C1 (amended): `upsert_slots` resolves references and inserts the
flattened rows, but applies no delta versioning: every pre-existing
`contract_storage` row is left unchanged (in particular a previously open
row stays open) and every inserted row has `valid_to = null` and
`previous_value = null`; no other versioned table is touched. -/
theorem upsert_slots_plain_insert (db : DbState) (slots : SlotChangeSet) (db' : DbState)
    (h : upsert_slots db slots = .ok db') :
    (∀ r ∈ db.contract_storage, r ∈ db'.contract_storage) ∧
    (∀ r ∈ db'.contract_storage,
      r ∈ db.contract_storage ∨ (r.valid_to = none ∧ r.previous_value = none)) ∧
    db'.account_balances = db.account_balances ∧
    db'.contract_codes = db.contract_codes ∧
    db'.accounts = db.accounts := by
  simp only [upsert_slots] at h
  cases hu : upsertRows
      (hmOfList (tx_ids_query db (slots.map (fun p => p.1))))
      (hmOfList (account_ids_query db (slots.flatMap (fun p => p.2.map (fun q => q.1)))))
      slots with
  | error e => simp [hu] at h
  | ok new_entries =>
    simp only [hu, Except.ok.injEq] at h
    subst h
    refine ⟨?_, ?_, rfl, rfl, rfl⟩
    · intro r hr
      exact List.mem_append.mpr (Or.inl hr)
    · intro r hr
      rcases List.mem_append.mp hr with hmem | hmem
      · exact Or.inl hmem
      · exact Or.inr (upsertRows_open _ _ slots new_entries hu r hmem)

/-- The database state for the C1 counterexample: one open storage row for
`(account 1, slot 7)` written at block 1 (`ts = 5`), and a second block
(`ts = 10`) whose transaction will write the same slot again. -/
def c1db : DbState where
  chains := [⟨1, .ethereum⟩]
  blocks := [⟨1, 100, 99, 1, true, 1, 5⟩, ⟨2, 101, 100, 1, true, 2, 10⟩]
  transactions := [⟨1, 200, 1, 1⟩, ⟨2, 201, 2, 1⟩]
  accounts := [⟨1, 1, 50, "c0", some 1, some 5, none, none⟩]
  account_balances := []
  contract_codes := []
  contract_storage := [⟨1, 7, some 10, none, 1, 1, 5, none⟩]
  protocol_components := []
  protocol_states := []
  component_balances := []
  protocol_calls_contract := []

/-- The change set writing value 20 to `(account 1, slot 7)` in tx `201`. -/
def c1slots : SlotChangeSet := [(201, [(50, [(7, some 20)])])]

/-- The pre-existing open row of the counterexample. -/
def c1r0 : StorageRow := ⟨1, 7, some 10, none, 1, 1, 5, none⟩

/-- The row inserted by the counterexample call. -/
def c1r1 : StorageRow := ⟨1, 7, some 20, none, 2, 1, 10, none⟩

/-- The database state after the counterexample call. -/
def c1dbAfter : DbState := { c1db with contract_storage := [c1r0, c1r1] }

/-- Counterexample to C1: after `upsert_slots` inserts a new value for a
`(account_id, slot)` key that already has an open row, the old row's
`valid_to` is still null and the new row's `previous_value` is still null,
and both rows satisfy the validity predicate at `T = 10` — delta
versioning is not applied and invariant I1 fails. -/
theorem upsert_slots_no_delta_versioning_cex :
    upsert_slots c1db c1slots = .ok c1dbAfter ∧
    c1r0 ∈ c1dbAfter.contract_storage ∧
    c1r1 ∈ c1dbAfter.contract_storage ∧
    c1r0 ≠ c1r1 ∧
    c1r0.account_id = c1r1.account_id ∧
    c1r0.slot = c1r1.slot ∧
    validAtB c1r0.valid_from c1r0.valid_to 10 = true ∧
    validAtB c1r1.valid_from c1r1.valid_to 10 = true ∧
    c1r0.valid_to = none ∧
    c1r1.previous_value = none := by
  refine ⟨rfl, by decide, by decide, by decide, by decide, by decide,
    by decide, by decide, by decide, by decide⟩

/-- Witness for the amended C1 theorem at the counterexample input. -/
theorem upsert_slots_plain_insert_witness :
    upsert_slots c1db c1slots = .ok c1dbAfter ∧
    (∀ r ∈ c1db.contract_storage, r ∈ c1dbAfter.contract_storage) :=
  ⟨rfl, (upsert_slots_plain_insert c1db c1slots c1dbAfter rfl).1⟩

/-! ## `revert_contract_state` (contract_state.rs 702) -/

/-- One versioned-table UPDATE of the revert protocol:
`SET valid_to = NULL WHERE valid_to > block.ts`, per row. -/
def reopenTo (ts : Int) : Option Int → Option Int
  | some v => if ts < v then none else some v
  | none => none

theorem reopenTo_le (ts : Int) (vt : Option Int) (v : Int)
    (h : reopenTo ts vt = some v) : v ≤ ts := by
  cases vt with
  | none => simp [reopenTo] at h
  | some w =>
    simp only [reopenTo] at h
    by_cases hw : ts < w
    · simp [hw] at h
    · rw [if_neg hw] at h
      cases h
      omega

/-- `revert_contract_state` (contract_state.rs 702): resolve the target
block; delete every block above it on its chain (the FK cascade — schema
code not part of the gateway source — is modelled from the spec: deleting a
block deletes its transactions and every row whose `modify_tx` or
`creation_tx` references a deleted transaction); then re-open, by setting
`valid_to = null where valid_to > block.ts`, the rows of exactly the five
tables the function updates — contract_storage, account_balance,
contract_code, protocol_state and protocol_calls_contract — and null out
`deleted_at > block.ts` on accounts and protocol components. The source
contains no statement touching `component_balance`. -/
def revert_contract_state (db : DbState) (tgt : BlockIdentifier) :
    Except StorageError DbState :=
  match Block_by_id db tgt with
  | none => .error (.notFound "Block" "revert target")
  | some block =>
    let blockDeleted := fun (b : BlockRow) =>
      decide (block.number < b.number) && decide (b.chain_id = block.chain_id)
    let deleted_blocks := db.blocks.filter blockDeleted
    let txDeleted := fun (t : TxRow) => deleted_blocks.any (fun b => decide (b.id = t.block_id))
    let deleted_txs := db.transactions.filter txDeleted
    let txGone := fun (i : Int) => deleted_txs.any (fun t => decide (t.id = i))
    .ok {
      chains := db.chains
      blocks := db.blocks.filter (fun b => !blockDeleted b)
      transactions := db.transactions.filter (fun t => !txDeleted t)
      accounts := (db.accounts.filter (fun a =>
          match a.creation_tx with
          | some t => !txGone t
          | none => true)).map
        (fun a => { a with deleted_at := reopenTo block.ts a.deleted_at })
      account_balances := (db.account_balances.filter (fun r => !txGone r.modify_tx)).map
        (fun r => { r with valid_to := reopenTo block.ts r.valid_to })
      contract_codes := (db.contract_codes.filter (fun r => !txGone r.modify_tx)).map
        (fun r => { r with valid_to := reopenTo block.ts r.valid_to })
      contract_storage := (db.contract_storage.filter (fun r => !txGone r.modify_tx)).map
        (fun r => { r with valid_to := reopenTo block.ts r.valid_to })
      protocol_components := (db.protocol_components.filter (fun c =>
          match c.creation_tx with
          | some t => !txGone t
          | none => true)).map
        (fun c => { c with deleted_at := reopenTo block.ts c.deleted_at })
      protocol_states := (db.protocol_states.filter (fun r => !txGone r.modify_tx)).map
        (fun r => { r with valid_to := reopenTo block.ts r.valid_to })
      component_balances := db.component_balances.filter (fun r => !txGone r.modify_tx)
      protocol_calls_contract := db.protocol_calls_contract.map
        (fun r => { r with valid_to := reopenTo block.ts r.valid_to })
    }

/-- C3 (amended): after `revert_contract_state(to)`, in each of the five
versioned tables the function updates — contract_storage, account_balance,
contract_code, protocol_state and the component-contract link table — no
row keeps a `valid_to` above `to`'s block timestamp; `component_balance`
is not one of them: its rows pass through with `valid_to` untouched. -/
theorem revert_contract_state_reopens (db : DbState) (tgt : BlockIdentifier)
    (block : BlockRow) (db' : DbState)
    (hb : Block_by_id db tgt = some block)
    (h : revert_contract_state db tgt = .ok db') :
    (∀ r ∈ db'.contract_storage, ∀ v, r.valid_to = some v → v ≤ block.ts) ∧
    (∀ r ∈ db'.account_balances, ∀ v, r.valid_to = some v → v ≤ block.ts) ∧
    (∀ r ∈ db'.contract_codes, ∀ v, r.valid_to = some v → v ≤ block.ts) ∧
    (∀ r ∈ db'.protocol_states, ∀ v, r.valid_to = some v → v ≤ block.ts) ∧
    (∀ r ∈ db'.protocol_calls_contract, ∀ v, r.valid_to = some v → v ≤ block.ts) ∧
    (∀ r ∈ db'.component_balances, r ∈ db.component_balances) := by
  simp only [revert_contract_state, hb] at h
  simp only [Except.ok.injEq] at h
  subst h
  refine ⟨?_, ?_, ?_, ?_, ?_, ?_⟩
  · intro r hr v hv
    obtain ⟨r0, _, hr0⟩ := List.mem_map.mp hr
    subst hr0
    exact reopenTo_le block.ts r0.valid_to v hv
  · intro r hr v hv
    obtain ⟨r0, _, hr0⟩ := List.mem_map.mp hr
    subst hr0
    exact reopenTo_le block.ts r0.valid_to v hv
  · intro r hr v hv
    obtain ⟨r0, _, hr0⟩ := List.mem_map.mp hr
    subst hr0
    exact reopenTo_le block.ts r0.valid_to v hv
  · intro r hr v hv
    obtain ⟨r0, _, hr0⟩ := List.mem_map.mp hr
    subst hr0
    exact reopenTo_le block.ts r0.valid_to v hv
  · intro r hr v hv
    obtain ⟨r0, _, hr0⟩ := List.mem_map.mp hr
    subst hr0
    exact reopenTo_le block.ts r0.valid_to v hv
  · intro r hr
    exact List.mem_of_mem_filter hr

/-- Database state for the C3 counterexample: one block (`ts = 10`), one
storage row and one component-balance row both closed at `valid_to = 20`. -/
def c3db : DbState where
  chains := [⟨1, .ethereum⟩]
  blocks := [⟨1, 100, 99, 1, true, 1, 10⟩]
  transactions := [⟨1, 200, 1, 1⟩]
  accounts := []
  account_balances := []
  contract_codes := []
  contract_storage := [⟨1, 7, some 1, none, 1, 1, 5, some 20⟩]
  protocol_components := []
  protocol_states := []
  component_balances := [⟨3, 4, 9, 0, 1, 5, some 20⟩]
  protocol_calls_contract := []

/-- Expected state after reverting `c3db` to block 1: the storage row is
re-opened, the component-balance row is not. -/
def c3dbAfter : DbState :=
  { c3db with contract_storage := [⟨1, 7, some 1, none, 1, 1, 5, none⟩] }

/-- Counterexample to C3: reverting to the block with `ts = 10` re-opens
the contract_storage row closed at 20 but leaves the component_balance
row's `valid_to = 20 > 10` untouched — `component_balance` is not among
the tables `revert_contract_state` re-opens. -/
theorem revert_component_balance_not_reopened_cex :
    revert_contract_state c3db (.hash 100) = .ok c3dbAfter ∧
    (⟨3, 4, 9, 0, 1, 5, some 20⟩ : ComponentBalanceRow) ∈ c3dbAfter.component_balances ∧
    Block_by_id c3db (.hash 100) = some ⟨1, 100, 99, 1, true, 1, 10⟩ ∧
    ((10 : Int) < 20) = True := by
  refine ⟨rfl, by decide, rfl, by simp⟩

/-- Witness for the amended C3 theorem at the counterexample input. -/
theorem revert_contract_state_reopens_witness :
    Block_by_id c3db (.hash 100) = some ⟨1, 100, 99, 1, true, 1, 10⟩ ∧
    revert_contract_state c3db (.hash 100) = .ok c3dbAfter ∧
    (∀ r ∈ c3dbAfter.component_balances, r ∈ c3db.component_balances) :=
  ⟨rfl, rfl,
    (revert_contract_state_reopens c3db (.hash 100) ⟨1, 100, 99, 1, true, 1, 10⟩
      c3dbAfter rfl rfl).2.2.2.2.2⟩

/-! ## `delete_contract` (contract_state.rs 427) -/

/-- The block-timestamp lookup of `delete_contract`: the `ts` of the block
the transaction belongs to. -/
def block_ts_of_tx (db : DbState) (tx : TxRow) : Option Int :=
  (db.blocks.find? (fun b => decide (b.id = tx.block_id))).map (fun b => b.ts)

/-- `delete_contract` (contract_state.rs 427): resolve the account and the
deletion transaction; if the account already has a `deletion_tx`, a second
call with the same transaction is a no-op and a call with a different
transaction is `Unexpected`; otherwise stamp the account deleted and set
`valid_to = block.ts` on every balance, code and storage row of the
account (the source updates carry no `valid_to is null` filter). -/
def delete_contract (db : DbState) (chain : Chain) (address : Nat) (at_tx : Nat) :
    Except StorageError DbState :=
  match Account_by_id db chain address with
  | none => .error (.notFound "Account" (toString address))
  | some account =>
    match Transaction_by_hash db at_tx with
    | none => .error (.notFound "Account" (toString at_tx))
    | some tx =>
      match block_ts_of_tx db tx with
      | none => .error (.notFound "Block" (toString tx.block_id))
      | some block_ts =>
        match account.deletion_tx with
        | some tx_id =>
          if tx.id ≠ tx_id then
            .error (.unexpected "Account was already deleted")
          else
            .ok db
        | none =>
          .ok { db with
            accounts := db.accounts.map (fun a =>
              if a.id = account.id then
                { a with deletion_tx := some tx.id, deleted_at := some block_ts }
              else a)
            contract_storage := db.contract_storage.map (fun r =>
              if r.account_id = account.id then { r with valid_to := some block_ts } else r)
            account_balances := db.account_balances.map (fun r =>
              if r.account_id = account.id then { r with valid_to := some block_ts } else r)
            contract_codes := db.contract_codes.map (fun r =>
              if r.account_id = account.id then { r with valid_to := some block_ts } else r) }

/-- C7: after a successful `delete_contract(c, t)` on a not-yet-deleted
account, calling `delete_contract(c, t)` again succeeds and returns the
state unchanged, while calling `delete_contract(c, t')` with a different
transaction fails with `Unexpected` (and, returning an error, changes
nothing). -/
theorem delete_contract_idempotent_spec
    (db : DbState) (chain : Chain) (address : Nat) (th th' : Nat)
    (account : AccountRow) (tx tx' : TxRow) (bts : Int) (db1 : DbState)
    (hacct : Account_by_id db chain address = some account)
    (hdel : account.deletion_tx = none)
    (htx : Transaction_by_hash db th = some tx)
    (hbts : block_ts_of_tx db tx = some bts)
    (htx' : Transaction_by_hash db th' = some tx')
    (hbts' : (block_ts_of_tx db tx').isSome = true)
    (hne : tx'.id ≠ tx.id)
    (h1 : delete_contract db chain address th = .ok db1) :
    delete_contract db chain address th = .ok db1 ∧
    delete_contract db1 chain address th = .ok db1 ∧
    (∃ msg, delete_contract db1 chain address th' = .error (.unexpected msg)) := by
  simp only [delete_contract, hacct, htx, hbts, hdel] at h1
  simp only [Except.ok.injEq] at h1
  have hacct1 : Account_by_id db1 chain address =
      some { account with deletion_tx := some tx.id, deleted_at := some bts } := by
    rw [← h1]
    show (db.accounts.map _).find? _ = _
    rw [List.find?_map]
    have hpred : (fun a : AccountRow => decide (a.address = address) &&
        (db.chains.any (fun c => decide (c.id = a.chain_id) && decide (c.name = chain)))) ∘
          (fun a : AccountRow => if a.id = account.id then
            { a with deletion_tx := some tx.id, deleted_at := some bts } else a) =
        (fun a : AccountRow => decide (a.address = address) &&
          (db.chains.any (fun c => decide (c.id = a.chain_id) && decide (c.name = chain)))) := by
      funext a
      by_cases hid : a.id = account.id <;> simp [Function.comp, hid]
    rw [hpred]
    rw [show (db.accounts.find? fun a => decide (a.address = address) &&
        (db.chains.any fun c => decide (c.id = a.chain_id) && decide (c.name = chain))) =
        some account from hacct]
    simp
  have htx1 : Transaction_by_hash db1 th = some tx := by
    rw [← h1]
    exact htx
  have htx1' : Transaction_by_hash db1 th' = some tx' := by
    rw [← h1]
    exact htx'
  have hbts1 : block_ts_of_tx db1 tx = some bts := by
    rw [← h1]
    exact hbts
  have hbts1' : (block_ts_of_tx db1 tx').isSome = true := by
    rw [← h1]
    exact hbts'
  refine ⟨?_, ?_, ?_⟩
  · simp only [delete_contract, hacct, htx, hbts, hdel]
    rw [h1]
  · simp only [delete_contract, hacct1, htx1, hbts1]
    simp
  · obtain ⟨bts', hbv⟩ := Option.isSome_iff_exists.mp hbts1'
    refine ⟨"Account was already deleted", ?_⟩
    simp only [delete_contract, hacct1, htx1', hbv]
    simp [hne]

/-- Database state for the C7 witness: one account, two transactions. -/
def c7db : DbState where
  chains := [⟨1, .ethereum⟩]
  blocks := [⟨1, 100, 99, 1, true, 1, 5⟩, ⟨2, 101, 100, 1, true, 2, 10⟩]
  transactions := [⟨1, 200, 1, 1⟩, ⟨2, 201, 2, 1⟩]
  accounts := [⟨1, 1, 50, "c0", some 1, some 5, none, none⟩]
  account_balances := [⟨1, 77, 1, 5, none⟩]
  contract_codes := []
  contract_storage := []
  protocol_components := []
  protocol_states := []
  component_balances := []
  protocol_calls_contract := []

/-- State of `c7db` after deleting the account at tx `200` (block ts 5). -/
def c7db1 : DbState :=
  { c7db with
    accounts := [⟨1, 1, 50, "c0", some 1, some 5, some 1, some 5⟩]
    account_balances := [⟨1, 77, 1, 5, some 5⟩] }

/-- Witness for C7 at a concrete state: deleting with tx `200`, repeating
with `200` is a no-op, repeating with `201` is `Unexpected`. -/
theorem delete_contract_idempotent_spec_witness :
    delete_contract c7db .ethereum 50 200 = .ok c7db1 ∧
    delete_contract c7db1 .ethereum 50 200 = .ok c7db1 ∧
    (∃ msg, delete_contract c7db1 .ethereum 50 201 = .error (.unexpected msg)) :=
  (delete_contract_idempotent_spec c7db .ethereum 50 200 201
    ⟨1, 1, 50, "c0", some 1, some 5, none, none⟩ ⟨1, 200, 1, 1⟩ ⟨2, 201, 2, 1⟩ 5 c7db1
    rfl rfl rfl rfl rfl rfl (by decide) rfl)

/-! ## `DISTINCT ON` and the slot queries (contract_state.rs 491, 202) -/

/-- The generic loop behind `distinctOn`: emit each element whose key has
not been seen yet. -/
def distinctOnGo {A K : Type} [DecidableEq K] (key : A → K) :
    List A → List K → List A
  | [], _ => []
  | x :: xs, seen =>
    if key x ∈ seen then distinctOnGo key xs seen
    else x :: distinctOnGo key xs (key x :: seen)

/-- `SELECT DISTINCT ON (key) … ORDER BY …` applied to an already ordered
row list: keep the first row of each key. -/
def distinctOn {A K : Type} [DecidableEq K] (key : A → K) (l : List A) : List A :=
  distinctOnGo key l []

/-- The loop of `construct_account_to_contract_store`
(contract_state.rs 794): resolve each account id to its address
(`DecodeError` when absent) and insert `(slot → value)` into the per
address store. -/
def cacsGo (addresses : List (Int × Nat)) :
    List (Int × Nat × Option Nat) → List (Nat × List (Nat × Option Nat)) →
    Except StorageError (List (Nat × List (Nat × Option Nat)))
  | [], acc => .ok acc
  | (cid, raw_key, raw_val) :: rest, acc =>
    match hmLookup addresses cid with
    | none => .error (.decodeError ("Failed to find contract address for id " ++ toString cid))
    | some addr =>
      let acc' := match hmLookup acc addr with
        | some store => hmInsert acc addr (hmInsert store raw_key raw_val)
        | none => hmInsert acc addr [(raw_key, raw_val)]
      cacsGo addresses rest acc'

/-- `construct_account_to_contract_store` (contract_state.rs 794). -/
def construct_account_to_contract_store
    (slot_values : List (Int × Nat × Option Nat)) (addresses : List (Int × Nat)) :
    Except StorageError (List (Nat × List (Nat × Option Nat))) :=
  cacsGo addresses slot_values []

/-- The `ORDER BY (account.id, slot, valid_from DESC, ordinal DESC)` of the
point-in-time slot query, as a total preorder on joined rows. -/
def slotsQueryOrder (p q : StorageRow × AccountRow) : Prop :=
  p.2.id < q.2.id ∨ (p.2.id = q.2.id ∧
    (p.1.slot < q.1.slot ∨ (p.1.slot = q.1.slot ∧
      (q.1.valid_from < p.1.valid_from ∨ (q.1.valid_from = p.1.valid_from ∧
        q.1.ordinal ≤ p.1.ordinal)))))

instance (p q : StorageRow × AccountRow) : Decidable (slotsQueryOrder p q) := by
  unfold slotsQueryOrder
  infer_instance

/-- `get_contract_slots` (contract_state.rs 491): one query joining
storage to account, filtered by the resolved chain id (this query uses the
qualified column `account::chain_id`, so the filter is real), restricted
to rows valid at the version timestamp, picking for each
`(account.id, slot)` the row with greatest `(valid_from, ordinal)`, then
resolving addresses and grouping. -/
def get_contract_slots (gw : Chain → Int) (db : DbState) (now : Int) (chain : Chain)
    (contracts : Option (List Nat)) (at_v : Option Version) :
    Except StorageError (List (Nat × List (Nat × Option Nat))) :=
  match version_to_ts db now at_v with
  | .error e => .error e
  | .ok version_ts =>
    let chain_id := gw chain
    let joined := db.contract_storage.flatMap (fun r =>
      (db.accounts.filter (fun a => decide (a.id = r.account_id))).map (fun a => (r, a)))
    let filtered := joined.filter (fun p =>
      decide (p.2.chain_id = chain_id) &&
      validAtB p.1.valid_from p.1.valid_to version_ts &&
      (match contracts with
       | some addrs => addrs.contains p.2.address
       | none => true))
    let dedup := distinctOn (fun p => (p.2.id, p.1.slot))
      (filtered.insertionSort slotsQueryOrder)
    let slots := dedup.map (fun p => (p.2.id, p.1.slot, p.1.value))
    let accounts := hmOfList
      ((db.accounts.filter (fun a => slots.any (fun t => decide (t.1 = a.id)))).map
        (fun a => (a.id, a.address)))
    construct_account_to_contract_store slots accounts

/-- One element of the `get_contracts` result: the account with its
balance and code versions and the associated tx hashes, plus the slot
store when requested (the byte-level slot decoding of `set_store` is
modelled separately by `parse_u256_slot_entry`). -/
structure ContractRecord where
  account : AccountRow
  creation_tx_hash : Option Nat
  balance : BalanceRow
  balance_tx : Nat
  code : CodeRow
  code_tx : Nat
  store : List (Nat × Option Nat)
deriving DecidableEq, Repr

/-- The account ordering of `get_contracts` (`ORDER BY id`). -/
def accountIdOrder (a b : AccountRow) : Prop := a.id ≤ b.id

instance (a b : AccountRow) : Decidable (accountIdOrder a b) := by
  unfold accountIdOrder
  infer_instance

/-- The `ORDER BY (account_id, transaction.index DESC)` of the bulk
balance and code queries. -/
def balanceQueryOrder {R : Type} (account_id : R → Int) (p q : R × TxRow) : Prop :=
  account_id p.1 < account_id q.1 ∨
    (account_id p.1 = account_id q.1 ∧ q.2.index ≤ p.2.index)

instance {R : Type} (account_id : R → Int) (p q : R × TxRow) :
    Decidable (balanceQueryOrder account_id p q) := by
  unfold balanceQueryOrder
  infer_instance

/-- The zip loop at the end of `get_contracts`: check the three aligned
rows agree on the account id (`Unexpected` otherwise) and build the
result records, attaching the slot store when one was fetched. -/
def zipContracts (slots : Option (List (Nat × List (Nat × Option Nat)))) :
    List ((AccountRow × Option Nat) × (BalanceRow × TxRow) × (CodeRow × TxRow)) →
    Except StorageError (List ContractRecord)
  | [] => .ok []
  | (a, b, c) :: rest =>
    if a.1.id = b.1.account_id ∧ b.1.account_id = c.1.account_id then
      match zipContracts slots rest with
      | .error e => .error e
      | .ok tail =>
        let store := match slots with
          | some storage =>
            match hmLookup storage a.1.address with
            | some st => st
            | none => []
          | none => []
        .ok ({ account := a.1, creation_tx_hash := a.2, balance := b.1,
               balance_tx := b.2.hash, code := c.1, code_tx := c.2.hash,
               store := store } :: tail)
    else .error (.unexpected "Identity mismatch")

/-- `get_contracts` (contract_state.rs 202). The account query opens with
`use schema::account::dsl::*`, whose glob import shadows the local
`chain_id` binding computed on line 210; both occurrences in
`.filter(chain_id.eq(chain_id))` therefore resolve to the
`account.chain_id` column and the generated predicate compares the column
with itself — the model keeps that self-comparison verbatim. -/
def get_contracts (gw : Chain → Int) (db : DbState) (now : Int) (chain : Chain)
    (ids : Option (List Nat)) (version : Option Version) (include_slots : Bool) :
    Except StorageError (List ContractRecord) :=
  let chain_id := gw chain
  match version_to_ts db now version with
  | .error e => .error e
  | .ok version_ts =>
    let accounts := ((db.accounts.filter (fun a =>
        decide (a.chain_id = a.chain_id) &&
        (match a.created_at with
         | some c => decide (c ≤ version_ts)
         | none => false) &&
        (match a.deleted_at with
         | none => true
         | some d => decide (version_ts < d)) &&
        (match ids with
         | some addrs => addrs.contains a.address
         | none => true))).insertionSort accountIdOrder).map
      (fun a => (a, a.creation_tx.bind (fun t =>
        (db.transactions.find? (fun x => decide (x.id = t))).map (fun x => x.hash))))
    let balances := distinctOn (fun p => p.1.account_id)
      (((db.account_balances.flatMap (fun r =>
          (db.transactions.filter (fun t => decide (t.id = r.modify_tx))).map
            (fun t => (r, t)))).filter (fun p =>
        (accounts.any (fun a => decide (a.1.id = p.1.account_id))) &&
        validAtB p.1.valid_from p.1.valid_to version_ts)).insertionSort
          (balanceQueryOrder BalanceRow.account_id))
    let codes := distinctOn (fun p => p.1.account_id)
      (((db.contract_codes.flatMap (fun r =>
          (db.transactions.filter (fun t => decide (t.id = r.modify_tx))).map
            (fun t => (r, t)))).filter (fun p =>
        (accounts.any (fun a => decide (a.1.id = p.1.account_id))) &&
        validAtB p.1.valid_from p.1.valid_to version_ts)).insertionSort
          (balanceQueryOrder CodeRow.account_id))
    let slotsRes : Except StorageError (Option (List (Nat × List (Nat × Option Nat)))) :=
      if include_slots then
        match get_contract_slots gw db now chain ids version with
        | .error e => .error e
        | .ok storage => .ok (some storage)
      else .ok none
    match slotsRes with
    | .error e => .error e
    | .ok slots =>
      if accounts.length = balances.length ∧ balances.length = codes.length then
        zipContracts slots (accounts.zip (balances.zip codes))
      else
        .error (.unexpected "Some accounts were missing either code or balance entities.")

/-- The chain-id resolution of the C2 gateway (the enum cache). -/
def c2gw : Chain → Int
  | .ethereum => 1
  | .starknet => 2

/-- Database state for the C2 failing input: account 1 on chain 1
(ethereum) and account 2 on chain 2 (starknet), each with one balance and
one code version. -/
def c2db : DbState where
  chains := [⟨1, .ethereum⟩, ⟨2, .starknet⟩]
  blocks := [⟨1, 100, 99, 1, true, 1, 5⟩]
  transactions := [⟨1, 200, 1, 1⟩]
  accounts := [⟨1, 1, 50, "a1", none, some 5, none, none⟩,
               ⟨2, 2, 60, "a2", none, some 5, none, none⟩]
  account_balances := [⟨1, 10, 1, 5, none⟩, ⟨2, 20, 1, 5, none⟩]
  contract_codes := [⟨1, 7, 70, 1, 5, none⟩, ⟨2, 8, 80, 1, 5, none⟩]
  contract_storage := []
  protocol_components := []
  protocol_states := []
  component_balances := []
  protocol_calls_contract := []

/-- Result record of account 1 in the C2 failing input. -/
def c2rec1 : ContractRecord :=
  { account := ⟨1, 1, 50, "a1", none, some 5, none, none⟩, creation_tx_hash := none,
    balance := ⟨1, 10, 1, 5, none⟩, balance_tx := 200,
    code := ⟨1, 7, 70, 1, 5, none⟩, code_tx := 200, store := [] }

/-- Result record of account 2 (the starknet account) in the C2 failing
input. -/
def c2rec2 : ContractRecord :=
  { account := ⟨2, 2, 60, "a2", none, some 5, none, none⟩, creation_tx_hash := none,
    balance := ⟨2, 20, 1, 5, none⟩, balance_tx := 200,
    code := ⟨2, 8, 80, 1, 5, none⟩, code_tx := 200, store := [] }

/-- C2 at its failing input: `get_contracts(ethereum)` on a two-chain
database returns both accounts — including the starknet account whose
`chain_id` (2) differs from the id resolved for the requested chain (1) —
because the chain filter compares the `account.chain_id` column with
itself. The results are nonetheless in ascending account-id order. -/
theorem get_contracts_chain_filter_bug :
    get_contracts c2gw c2db 50 .ethereum none none false = .ok [c2rec1, c2rec2] ∧
    c2rec2.account.chain_id = 2 ∧
    c2gw .ethereum = 1 ∧
    ((2 : Int) ≠ 1) ∧
    [c2rec1, c2rec2].map (fun r => r.account.id) = [1, 2] :=
  ⟨rfl, rfl, rfl, by decide, rfl⟩

/-! ## `update_protocol_states` (tycho-indexer protocol.rs 239) -/

/-- `orm::NewProtocolState` (orm.rs 999). -/
structure NewProtocolState where
  protocol_component_id : Int
  attribute_name : Option String
  attribute_value : Option Nat
  previous_value : Option Nat
  modify_tx : Int
  valid_from : Int
  valid_to : Option Int
deriving DecidableEq, Repr

/-- Modelled from the spec: `evm::ProtocolStateDelta` (its definition is
not among the provided sources). Per §6.2 it carries the component's
external id, the modifying transaction hash and the updated attribute
values. -/
structure ProtocolStateDelta where
  component_id : String
  modify_tx : Nat
  updated_attributes : List (String × Nat)
deriving DecidableEq, Repr

/-- Modelled from the spec: `ProtocolStateDelta::to_storage` (definition
not among the provided sources) — "Builds `NewProtocolState` rows": one
row per updated attribute, carrying the resolved component id, the tx id
and the tx's block timestamp as `valid_from`, with `valid_to` and
`previous_value` unset (orm.rs 1009 `NewProtocolState::new`). -/
def ProtocolStateDelta_to_storage (delta : ProtocolStateDelta)
    (component_db_id tx_id block_ts : Int) : List NewProtocolState :=
  delta.updated_attributes.map (fun p =>
    { protocol_component_id := component_db_id, attribute_name := some p.1,
      attribute_value := some p.2, previous_value := none, modify_tx := tx_id,
      valid_from := block_ts, valid_to := none })

/-- Modelled from the spec: `orm::Transaction::id_by_hashes` (definition
not among the provided sources) — resolves transaction hashes to
`(id, hash, index, block.ts)` in one batch query. -/
def Transaction_id_by_hashes (db : DbState) (hashes : List Nat) :
    List (Int × Nat × Int × Int) :=
  (db.transactions.flatMap (fun t =>
    (db.blocks.filter (fun b => decide (b.id = t.block_id))).map
      (fun b => (t.id, t.hash, t.index, b.ts)))).filter
    (fun q => hashes.contains q.2.1)

/-- `orm::ProtocolComponent::ids_by_external_ids` (orm.rs 613). -/
def ProtocolComponent_ids_by_external_ids (db : DbState)
    (external_ids : List String) (chain_db_id : Int) : List (Int × String) :=
  (db.protocol_components.filter (fun c =>
    external_ids.contains c.external_id && decide (c.chain_id = chain_db_id))).map
    (fun c => (c.id, c.external_id))

/-- The per-delta loop of `update_protocol_states` (protocol.rs 274):
`txns.get(..).expect("Failed to find tx")` and
`components.get(..).expect("Failed to find component")` abort the process
on a missing reference — modelled by `none`. Each produced row is paired
with the transaction index `tx_db.1`. -/
def buildStateData (txns : List (Nat × (Int × Int × Int)))
    (components : List (String × Int)) :
    List ProtocolStateDelta → Option (List (NewProtocolState × Int))
  | [] => some []
  | state :: rest =>
    match hmLookup txns state.modify_tx with
    | none => none
    | some (tx_id, tx_index, block_ts) =>
      match hmLookup components state.component_id with
      | none => none
      | some component_db_id =>
        match buildStateData txns components rest with
        | none => none
        | some tail =>
          some (((ProtocolStateDelta_to_storage state component_db_id tx_id block_ts).map
            (fun st => (st, tx_index))) ++ tail)

/-- The `Ord` instance Rust derives for `Option<String>`:
`None < Some _`. -/
def compareOptStr : Option String → Option String → Ordering
  | none, none => .eq
  | none, some _ => .lt
  | some _, none => .gt
  | some a, some b => compare a b

/-- The comparator of the `state_data.sort_by` call (protocol.rs 291):
component id, then attribute name, then `a.1.cmp(&b.1)` — which compares
only the transaction index paired with each row, not the block
timestamp. -/
def stateDataCmp (a b : NewProtocolState × Int) : Ordering :=
  let ord := compare a.1.protocol_component_id b.1.protocol_component_id
  if ord = .eq then
    let sub_order := compareOptStr a.1.attribute_name b.1.attribute_name
    if sub_order = .eq then compare a.2 b.2 else sub_order
  else ord

/-- The sort relation induced by `stateDataCmp` (Rust `sort_by` is a
stable sort, as is `List.insertionSort`). -/
def stateDataOrder (a b : NewProtocolState × Int) : Prop := stateDataCmp a b ≠ .gt

instance (a b : NewProtocolState × Int) : Decidable (stateDataOrder a b) := by
  unfold stateDataOrder
  infer_instance

/-- The invalidation walk of `update_protocol_states` (protocol.rs 312):
for each adjacent pair sharing `(protocol_component_id, attribute_name)`,
close the first row with the second row's `valid_from`. -/
def invalidateLoop : List (NewProtocolState × Int) → List (NewProtocolState × Int)
  | [] => []
  | [x] => [x]
  | x :: y :: rest =>
    if x.1.protocol_component_id = y.1.protocol_component_id ∧
        x.1.attribute_name = y.1.attribute_name then
      ({ x.1 with valid_to := some y.1.valid_from }, x.2) :: invalidateLoop (y :: rest)
    else
      x :: invalidateLoop (y :: rest)

/-- `update_protocol_states` (protocol.rs 239): resolve the tx hashes and
component external ids in two batch queries, build the rows, sort them
with `stateDataCmp`, run the invalidation walk and bulk-insert. The
returned value is the list of inserted rows; `none` models the
`expect`-abort on a missing reference — the function has no error path for
unknown references. -/
def update_protocol_states (gw : Chain → Int) (db : DbState) (chain : Chain)
    (new : List ProtocolStateDelta) : Option (List NewProtocolState) :=
  let chain_db_id := gw chain
  let txns := hmOfList ((Transaction_id_by_hashes db (new.map (fun st => st.modify_tx))).map
    (fun q => (q.2.1, (q.1, q.2.2.1, q.2.2.2))))
  let components := hmOfList ((ProtocolComponent_ids_by_external_ids db
    (new.map (fun st => st.component_id)) chain_db_id).map (fun p => (p.2, p.1)))
  match buildStateData txns components new with
  | none => none
  | some state_data =>
    some ((invalidateLoop (state_data.insertionSort stateDataOrder)).map (fun p => p.1))

/-- Chain-id cache for the protocol-gateway examples. -/
def c46gw : Chain → Int
  | .ethereum => 1
  | .starknet => 2

/-- Database state for the C4 failing input: transaction `10` sits in
block 1 (`ts = 100`) with intra-block index 2, transaction `11` in block 2
(`ts = 200`) with index 1; one protocol component `"c"`. -/
def c4db : DbState where
  chains := [⟨1, .ethereum⟩]
  blocks := [⟨1, 100, 99, 1, true, 1, 100⟩, ⟨2, 101, 100, 1, true, 2, 200⟩]
  transactions := [⟨1, 10, 1, 2⟩, ⟨2, 11, 2, 1⟩]
  accounts := []
  account_balances := []
  contract_codes := []
  contract_storage := []
  protocol_components := [⟨7, 1, "c", none, none⟩]
  protocol_states := []
  component_balances := []
  protocol_calls_contract := []

/-- C4 at its failing input: two updates to the same
`(component, attribute)` from transactions in different blocks. The sort
comparator breaks the tie by transaction index alone, so the update from
the *later* block (`valid_from = 200`, index 1) is ordered first and is
closed with `valid_to = 100` — the earlier block's timestamp, below its
own `valid_from` — while the earlier update stays open. The claimed
`(component_id, attribute_name, block_ts, tx.index)` order would have
produced the opposite. -/
theorem update_protocol_states_sort_ignores_block_ts :
    update_protocol_states c46gw c4db .ethereum
        [⟨"c", 10, [("x", 1)]⟩, ⟨"c", 11, [("x", 2)]⟩] =
      some [⟨7, some "x", some 2, none, 2, 200, some 100⟩,
            ⟨7, some "x", some 1, none, 1, 100, none⟩] ∧
    ((100 : Int) < 200) = True :=
  ⟨rfl, by simp⟩

/-- Database state for the C6 failing input: no transactions at all, one
component. -/
def c6db : DbState where
  chains := [⟨1, .ethereum⟩]
  blocks := [⟨1, 100, 99, 1, true, 1, 100⟩]
  transactions := []
  accounts := []
  account_balances := []
  contract_codes := []
  contract_storage := []
  protocol_components := [⟨7, 1, "comp", none, none⟩]
  protocol_states := []
  component_balances := []
  protocol_calls_contract := []

/-- C6 at its failing input: a delta whose `modify_tx` hash is absent from
the database makes `update_protocol_states` hit
`.expect("Failed to find tx")` and abort (`none`) — it does not return an
error value. -/
theorem update_protocol_states_expect_aborts :
    Transaction_by_hash c6db 999 = none ∧
    update_protocol_states c46gw c6db .ethereum [⟨"comp", 999, [("x", 1)]⟩] = none :=
  ⟨rfl, rfl⟩

/-! ## `get_slots_delta` (contract_state.rs 599) -/

/-- The `ORDER BY (account.id ASC, slot ASC, valid_from ASC, ordinal ASC)`
of the backward delta query. -/
def revSlotsOrder (p q : StorageRow × AccountRow) : Prop :=
  p.2.id < q.2.id ∨ (p.2.id = q.2.id ∧
    (p.1.slot < q.1.slot ∨ (p.1.slot = q.1.slot ∧
      (p.1.valid_from < q.1.valid_from ∨ (p.1.valid_from = q.1.valid_from ∧
        p.1.ordinal ≤ q.1.ordinal)))))

instance (p q : StorageRow × AccountRow) : Decidable (revSlotsOrder p q) := by
  unfold revSlotsOrder
  infer_instance

/-- The joined relation of the delta queries:
`contract_storage ⋈ account ⋈ chain`. -/
def storageAccountChainJoin (db : DbState) : List (StorageRow × AccountRow × ChainRow) :=
  db.contract_storage.flatMap (fun r =>
    (db.accounts.filter (fun a => decide (a.id = r.account_id))).flatMap (fun a =>
      (db.chains.filter (fun c => decide (c.id = a.chain_id))).map (fun c => (r, a, c))))

/-- The backward branch of `get_slots_delta` (contract_state.rs 652):
changes with `target < valid_from ≤ start`, ordered ascending, first row
per `(account.id, slot)`, selecting `previous_value`. -/
def slots_delta_rev_rows (db : DbState) (chain_id tTs sTs : Int) :
    List (Int × Nat × Option Nat) :=
  let filtered := ((storageAccountChainJoin db).filter (fun p =>
    decide (p.2.2.id = chain_id) &&
    decide (tTs < p.1.valid_from) &&
    decide (p.1.valid_from ≤ sTs))).map (fun p => (p.1, p.2.1))
  (distinctOn (fun p => (p.2.id, p.1.slot)) (filtered.insertionSort revSlotsOrder)).map
    (fun p => (p.2.id, p.1.slot, p.1.previous_value))

/-- The forward branch of `get_slots_delta` (contract_state.rs 622):
changes with `start < valid_from ≤ target`, ordered descending in time,
first row per `(account.id, slot)`, selecting `value`. -/
def slots_delta_fwd_rows (db : DbState) (chain_id sTs tTs : Int) :
    List (Int × Nat × Option Nat) :=
  let filtered := ((storageAccountChainJoin db).filter (fun p =>
    decide (p.2.2.id = chain_id) &&
    decide (sTs < p.1.valid_from) &&
    decide (p.1.valid_from ≤ tTs))).map (fun p => (p.1, p.2.1))
  (distinctOn (fun p => (p.2.id, p.1.slot)) (filtered.insertionSort slotsQueryOrder)).map
    (fun p => (p.2.id, p.1.slot, p.1.value))

/-- `get_slots_delta` (contract_state.rs 599): coerce the two versions,
branch on direction, then resolve the changed account ids to addresses and
group into the per-account store. -/
def get_slots_delta (gw : Chain → Int) (db : DbState) (now : Int) (chain : Chain)
    (start_version : Option BlockOrTimestamp) (target_version : BlockOrTimestamp) :
    Except StorageError (List (Nat × List (Nat × Option Nat))) :=
  let chain_id := gw chain
  match coerce_block_or_ts db now start_version with
  | .error e => .error e
  | .ok start_version_ts =>
    match coerce_block_or_ts db now (some target_version) with
    | .error e => .error e
    | .ok target_version_ts =>
      let changed_values :=
        if start_version_ts ≤ target_version_ts then
          slots_delta_fwd_rows db chain_id start_version_ts target_version_ts
        else
          slots_delta_rev_rows db chain_id target_version_ts start_version_ts
      let account_addresses := hmOfList
        ((db.accounts.filter (fun a => changed_values.any (fun t => decide (t.1 = a.id)))).map
          (fun a => (a.id, a.address)))
      construct_account_to_contract_store changed_values account_addresses

/-- Lookup of one slot of one account in an `AccountToContractStore`
value: `some v` means the store maps the slot to `v` (itself an optional
value — `none` meaning removal). -/
def storeLookup (res : List (Nat × List (Nat × Option Nat))) (addr s : Nat) :
    Option (Option Nat) :=
  match hmLookup res addr with
  | some store => hmLookup store s
  | none => none

/-! ## Properties of `distinctOn`, sorted lists and the map model -/

theorem distinctOnGo_subset {A K : Type} [DecidableEq K] (key : A → K) :
    ∀ (l : List A) (seen : List K) (q : A), q ∈ distinctOnGo key l seen → q ∈ l := by
  intro l
  induction l with
  | nil => intro seen q h; simp [distinctOnGo] at h
  | cons y ys ih =>
    intro seen q h
    simp only [distinctOnGo] at h
    by_cases hy : key y ∈ seen
    · rw [if_pos hy] at h
      exact List.mem_cons_of_mem y (ih seen q h)
    · rw [if_neg hy] at h
      rcases List.mem_cons.mp h with rfl | h'
      · exact List.mem_cons_self q ys
      · exact List.mem_cons_of_mem y (ih _ q h')

theorem distinctOnGo_find {A K : Type} [DecidableEq K] (key : A → K) :
    ∀ (l : List A) (seen : List K) (q : A), q ∈ distinctOnGo key l seen →
      key q ∉ seen ∧ l.find? (fun x => decide (key x = key q)) = some q := by
  intro l
  induction l with
  | nil => intro seen q h; simp [distinctOnGo] at h
  | cons y ys ih =>
    intro seen q h
    simp only [distinctOnGo] at h
    by_cases hy : key y ∈ seen
    · rw [if_pos hy] at h
      obtain ⟨hns, hfind⟩ := ih seen q h
      have hne : key y ≠ key q := fun he => hns (he ▸ hy)
      refine ⟨hns, ?_⟩
      simp only [List.find?, decide_eq_false hne]
      exact hfind
    · rw [if_neg hy] at h
      rcases List.mem_cons.mp h with rfl | h'
      · refine ⟨hy, ?_⟩
        simp [List.find?]
      · obtain ⟨hns, hfind⟩ := ih (key y :: seen) q h'
        have hny : key y ≠ key q := fun he => hns (by simp [← he])
        refine ⟨fun hs => hns (by simp [hs]), ?_⟩
        simp only [List.find?, decide_eq_false hny]
        exact hfind

theorem distinctOnGo_pairwise {A K : Type} [DecidableEq K] (key : A → K) :
    ∀ (l : List A) (seen : List K),
      (distinctOnGo key l seen).Pairwise (fun p q => key p ≠ key q) := by
  intro l
  induction l with
  | nil => intro seen; simp [distinctOnGo]
  | cons y ys ih =>
    intro seen
    simp only [distinctOnGo]
    by_cases hy : key y ∈ seen
    · rw [if_pos hy]; exact ih seen
    · rw [if_neg hy]
      refine List.pairwise_cons.mpr ⟨?_, ih _⟩
      intro q hq he
      exact (distinctOnGo_find key ys (key y :: seen) q hq).1 (by simp [← he])

theorem distinctOn_cover {A K : Type} [DecidableEq K] (key : A → K) :
    ∀ (l : List A) (seen : List K) (x : A), x ∈ l → key x ∉ seen →
      ∃ q ∈ distinctOnGo key l seen, key q = key x := by
  intro l
  induction l with
  | nil => intro seen x hx; simp at hx
  | cons y ys ih =>
    intro seen x hx hxs
    simp only [distinctOnGo]
    by_cases hy : key y ∈ seen
    · rw [if_pos hy]
      rcases List.mem_cons.mp hx with rfl | hx'
      · exact absurd hy hxs
      · exact ih seen x hx' hxs
    · rw [if_neg hy]
      rcases List.mem_cons.mp hx with rfl | hx'
      · exact ⟨x, by simp, rfl⟩
      · by_cases hk : key x = key y
        · exact ⟨y, by simp, hk.symm⟩
        · obtain ⟨q, hq, hqk⟩ := ih (key y :: seen) x hx' (by simp [hk, hxs])
          exact ⟨q, by simp [hq], hqk⟩

theorem find?_min_of_sorted {A : Type} (le : A → A → Prop)
    (hrefl : ∀ a, le a a) :
    ∀ (l : List A), l.Pairwise le → ∀ (p : A → Bool) (q : A), l.find? p = some q →
      ∀ x ∈ l, p x = true → le q x := by
  intro l
  induction l with
  | nil => intro _ p q h; simp at h
  | cons y ys ih =>
    intro hs p q h x hx hpx
    simp only [List.find?] at h
    cases hpy : p y with
    | true =>
      rw [hpy] at h
      simp only [Option.some.injEq] at h
      subst h
      rcases List.mem_cons.mp hx with rfl | hx'
      · exact hrefl x
      · exact (List.pairwise_cons.mp hs).1 x hx'
    | false =>
      rw [hpy] at h
      rcases List.mem_cons.mp hx with rfl | hx'
      · rw [hpx] at hpy; cases hpy
      · exact ih (List.pairwise_cons.mp hs).2 p q h x hx' hpx

theorem revSlotsOrder_refl (p : StorageRow × AccountRow) : revSlotsOrder p p := by
  unfold revSlotsOrder
  omega

instance : IsTotal (StorageRow × AccountRow) revSlotsOrder where
  total := by
    intro a b
    unfold revSlotsOrder
    omega

instance : IsTrans (StorageRow × AccountRow) revSlotsOrder where
  trans := by
    intro a b c hab hbc
    unfold revSlotsOrder at hab hbc ⊢
    omega

theorem lastVal_mem {K V : Type} [DecidableEq K] :
    ∀ (l : List (K × V)) (k : K) (w : V), lastVal l k = some w → (k, w) ∈ l := by
  intro l
  induction l with
  | nil => intro k w h; simp [lastVal] at h
  | cons p rest ih =>
    intro k w h
    simp only [lastVal] at h
    cases hr : lastVal rest k with
    | some v =>
      rw [hr] at h
      cases h
      exact List.mem_cons_of_mem p (ih k w hr)
    | none =>
      rw [hr] at h
      by_cases hp : p.1 = k
      · rw [if_pos hp] at h
        cases h
        have hpe : (k, p.2) = p := by
          obtain ⟨k', v'⟩ := p
          simp only at hp
          rw [hp]
        rw [hpe]
        exact List.mem_cons_self _ _
      · rw [if_neg hp] at h
        cases h

theorem lastVal_not_mem {K V : Type} [DecidableEq K] :
    ∀ (l : List (K × V)) (k : K) (v : V), lastVal l k = none → (k, v) ∈ l → False := by
  intro l
  induction l with
  | nil => intro k v _ hm; simp at hm
  | cons p rest ih =>
    intro k v h hm
    simp only [lastVal] at h
    cases hr : lastVal rest k with
    | some w => rw [hr] at h; cases h
    | none =>
      rw [hr] at h
      rcases List.mem_cons.mp hm with rfl | hm'
      · simp at h
      · exact ih k v hr hm'

theorem lastVal_unique_binding {K V : Type} [DecidableEq K] :
    ∀ (l : List (K × V)) (k : K) (v : V), (k, v) ∈ l →
      (∀ p ∈ l, p.1 = k → p.2 = v) → lastVal l k = some v := by
  intro l
  induction l with
  | nil => intro k v hm; simp at hm
  | cons p rest ih =>
    intro k v hm hall
    simp only [lastVal]
    cases hr : lastVal rest k with
    | some w =>
      have := hall (k, w) (lastVal_mem rest k w hr |> List.mem_cons_of_mem p) rfl
      simp only at this
      rw [this]
    | none =>
      rcases List.mem_cons.mp hm with rfl | hm'
      · simp
      · exact absurd hm' (fun hc => lastVal_not_mem rest k v hr hc)

/-- The value of the last triple of `l` routed to `(addr, s)` via the
address map: the net effect of the `construct_account_to_contract_store`
loop on one slot of one account. -/
def lastTriple (addresses : List (Int × Nat)) :
    List (Int × Nat × Option Nat) → Nat → Nat → Option (Option Nat)
  | [], _, _ => none
  | (cidv, k, v) :: rest, addr, s =>
    match lastTriple addresses rest addr s with
    | some w => some w
    | none => if hmLookup addresses cidv = some addr ∧ k = s then some v else none

theorem cacsStep_lookup (acc : List (Nat × List (Nat × Option Nat)))
    (addr0 k : Nat) (v : Option Nat) (addr s : Nat) :
    storeLookup (match hmLookup acc addr0 with
      | some store => hmInsert acc addr0 (hmInsert store k v)
      | none => hmInsert acc addr0 [(k, v)]) addr s =
    if addr0 = addr ∧ k = s then some v else storeLookup acc addr s := by
  by_cases ha : addr0 = addr
  · subst ha
    cases hl : hmLookup acc addr0 with
    | some store =>
      by_cases hk : k = s
      · subst hk
        simp [storeLookup, hmLookup_insert_self]
      · have hsk : s ≠ k := fun hc => hk hc.symm
        simp [storeLookup, hmLookup_insert_self, hmLookup_insert_ne store k s v hsk, hk, hl]
    | none =>
      by_cases hk : k = s
      · subst hk
        rw [if_pos ⟨rfl, rfl⟩]
        simp only [storeLookup, hmLookup_insert_self]
        simp [hmLookup, List.find?]
      · rw [if_neg (fun hc => hk hc.2)]
        simp only [storeLookup, hmLookup_insert_self, hl]
        simp [hmLookup, List.find?, decide_eq_false hk]
  · have hne : addr ≠ addr0 := fun hc => ha hc.symm
    have hcond : ¬(addr0 = addr ∧ k = s) := fun hc => ha hc.1
    rw [if_neg hcond]
    cases hl : hmLookup acc addr0 with
    | some store =>
      simp [storeLookup, hmLookup_insert_ne acc addr0 addr _ hne]
    | none =>
      simp [storeLookup, hmLookup_insert_ne acc addr0 addr _ hne]

theorem cacsGo_lookup (addresses : List (Int × Nat)) :
    ∀ (l : List (Int × Nat × Option Nat)) (acc : List (Nat × List (Nat × Option Nat))),
      (∀ t ∈ l, (hmLookup addresses t.1).isSome = true) →
      ∃ m, cacsGo addresses l acc = .ok m ∧
        ∀ addr s, storeLookup m addr s =
          (match lastTriple addresses l addr s with
           | some w => some w
           | none => storeLookup acc addr s) := by
  intro l
  induction l with
  | nil =>
    intro acc _
    exact ⟨acc, rfl, fun addr s => by simp [lastTriple]⟩
  | cons t rest ih =>
    intro acc hall
    obtain ⟨cidv, k, v⟩ := t
    obtain ⟨addr0, haddr0⟩ := Option.isSome_iff_exists.mp (hall (cidv, k, v) (by simp))
    have htail : ∀ t ∈ rest, (hmLookup addresses t.1).isSome = true :=
      fun t ht => hall t (by simp [ht])
    obtain ⟨m, hm, hchar⟩ := ih
      (match hmLookup acc addr0 with
       | some store => hmInsert acc addr0 (hmInsert store k v)
       | none => hmInsert acc addr0 [(k, v)]) htail
    refine ⟨m, ?_, ?_⟩
    · simp only [cacsGo, haddr0]
      exact hm
    · intro addr s
      rw [hchar addr s]
      simp only [lastTriple]
      cases hr : lastTriple addresses rest addr s with
      | some w => simp
      | none =>
        simp only [haddr0]
        rw [cacsStep_lookup]
        by_cases hc : addr0 = addr ∧ k = s
        · rw [if_pos hc, if_pos (by simp [hc.1, hc.2])]
        · rw [if_neg hc, if_neg (by simp only [Option.some.injEq]; exact hc)]

theorem lastTriple_none (addresses : List (Int × Nat)) :
    ∀ (l : List (Int × Nat × Option Nat)) (addr s : Nat),
      (∀ t ∈ l, ¬(hmLookup addresses t.1 = some addr ∧ t.2.1 = s)) →
      lastTriple addresses l addr s = none := by
  intro l
  induction l with
  | nil => intro addr s _; rfl
  | cons t rest ih =>
    intro addr s hall
    obtain ⟨cidv, k, v⟩ := t
    simp only [lastTriple]
    rw [ih addr s (fun t ht => hall t (by simp [ht]))]
    rw [if_neg (hall (cidv, k, v) (by simp))]

theorem lastTriple_unique (addresses : List (Int × Nat)) :
    ∀ (l : List (Int × Nat × Option Nat)) (addr s : Nat) (c0 : Int) (v : Option Nat),
      l.Pairwise (fun t t' => (t.1, t.2.1) ≠ (t'.1, t'.2.1)) →
      (c0, s, v) ∈ l →
      hmLookup addresses c0 = some addr →
      (∀ t ∈ l, hmLookup addresses t.1 = some addr → t.2.1 = s → t.1 = c0) →
      lastTriple addresses l addr s = some v := by
  intro l
  induction l with
  | nil => intro addr s c0 v _ hm; simp at hm
  | cons t rest ih =>
    intro addr s c0 v hkeys hmem hc0 hinj
    rcases List.mem_cons.mp hmem with heq | hmem'
    · subst heq
      simp only [lastTriple]
      have hnone : lastTriple addresses rest addr s = none := by
        refine lastTriple_none addresses rest addr s ?_
        rintro t' ht' ⟨hlook, hslot⟩
        have hc : t'.1 = c0 := hinj t' (by simp [ht']) hlook hslot
        have := (List.pairwise_cons.mp hkeys).1 t' ht'
        exact this (by simp [hc, hslot])
      rw [hnone]
      rw [if_pos ⟨hc0, by trivial⟩]
    · simp only [lastTriple]
      rw [ih addr s c0 v (List.pairwise_cons.mp hkeys).2 hmem' hc0
        (fun t' ht' => hinj t' (by simp [ht']))]

/-- The joined and filtered row set of the backward delta query, as a
predicate on `(storage, account)` pairs. -/
theorem rev_filtered_mem (db : DbState) (cid tTs sTs : Int) (q : StorageRow × AccountRow) :
    q ∈ ((storageAccountChainJoin db).filter (fun p =>
        decide (p.2.2.id = cid) && decide (tTs < p.1.valid_from) &&
        decide (p.1.valid_from ≤ sTs))).map (fun p => (p.1, p.2.1)) ↔
      (q.1 ∈ db.contract_storage ∧ q.2 ∈ db.accounts ∧ q.2.id = q.1.account_id ∧
        q.2.chain_id = cid ∧ (∃ c ∈ db.chains, c.id = cid) ∧
        tTs < q.1.valid_from ∧ q.1.valid_from ≤ sTs) := by
  constructor
  · intro h
    obtain ⟨p, hp, hq⟩ := List.mem_map.mp h
    obtain ⟨hpj, hpf⟩ := List.mem_filter.mp hp
    obtain ⟨r, hr, h2⟩ := List.mem_flatMap.mp hpj
    obtain ⟨a, ha, h3⟩ := List.mem_flatMap.mp h2
    obtain ⟨c, hcin, hc⟩ := List.mem_map.mp h3
    obtain ⟨hain, haid⟩ := List.mem_filter.mp ha
    obtain ⟨hcin2, hcid⟩ := List.mem_filter.mp hcin
    subst hc
    subst hq
    simp only [decide_eq_true_eq] at haid hcid
    simp only [Bool.and_eq_true, decide_eq_true_eq] at hpf
    dsimp only at hpf ⊢
    refine ⟨hr, hain, haid, by omega, ⟨c, hcin2, hpf.1.1⟩, hpf.1.2, hpf.2⟩
  · rintro ⟨hr, ha, hid, hchain, ⟨c, hcin, hcid⟩, hw1, hw2⟩
    refine List.mem_map.mpr ⟨(q.1, q.2, c), ?_, by simp⟩
    refine List.mem_filter.mpr ⟨?_, ?_⟩
    · refine List.mem_flatMap.mpr ⟨q.1, hr, ?_⟩
      refine List.mem_flatMap.mpr ⟨q.2, List.mem_filter.mpr ⟨ha, by simp [hid]⟩, ?_⟩
      exact List.mem_map.mpr ⟨c, List.mem_filter.mpr ⟨hcin, by simp [hcid, hchain]⟩, rfl⟩
    · simp only [Bool.and_eq_true, decide_eq_true_eq]
      exact ⟨⟨hcid, hw1⟩, hw2⟩

/-- Every triple produced by the backward delta query comes from a joined
row pair satisfying the window predicate. -/
theorem slots_delta_rev_rows_mem (db : DbState) (cid tTs sTs : Int)
    (t : Int × Nat × Option Nat) (ht : t ∈ slots_delta_rev_rows db cid tTs sTs) :
    ∃ q : StorageRow × AccountRow,
      (q.1 ∈ db.contract_storage ∧ q.2 ∈ db.accounts ∧ q.2.id = q.1.account_id ∧
        q.2.chain_id = cid ∧ tTs < q.1.valid_from ∧ q.1.valid_from ≤ sTs) ∧
      t = (q.2.id, q.1.slot, q.1.previous_value) := by
  simp only [slots_delta_rev_rows] at ht
  obtain ⟨q, hq, hqt⟩ := List.mem_map.mp ht
  unfold distinctOn at hq
  have hqS := distinctOnGo_subset (fun p : StorageRow × AccountRow => (p.2.id, p.1.slot)) _ _ q hq
  have hqL := (List.perm_insertionSort revSlotsOrder _).mem_iff.mp hqS
  obtain ⟨h1, h2, h3, h4, _, h6, h7⟩ := (rev_filtered_mem db cid tTs sTs q).mp hqL
  exact ⟨q, ⟨h1, h2, h3, h4, h6, h7⟩, hqt.symm⟩

/-- The triples of the backward delta query have pairwise distinct
`(account id, slot)` keys. -/
theorem slots_delta_rev_rows_keys (db : DbState) (cid tTs sTs : Int) :
    (slots_delta_rev_rows db cid tTs sTs).Pairwise
      (fun t t' => (t.1, t.2.1) ≠ (t'.1, t'.2.1)) := by
  refine List.Pairwise.map _ ?_
    (distinctOnGo_pairwise (fun p : StorageRow × AccountRow => (p.2.id, p.1.slot)) _ [])
  intro a b h
  exact h

/-- C5 core: when `r0` is the window change of `(a.id, s)` with the
smallest `(valid_from, ordinal)`, the backward delta query emits exactly
`(a.id, s, r0.previous_value)`. -/
theorem slots_delta_rev_rows_min (db : DbState) (cid tTs sTs : Int)
    (huniqRow : ∀ r ∈ db.contract_storage, ∀ r' ∈ db.contract_storage,
      r.account_id = r'.account_id → r.slot = r'.slot → r.valid_from = r'.valid_from →
      r.ordinal = r'.ordinal → r = r')
    (a : AccountRow) (ha : a ∈ db.accounts) (hac : a.chain_id = cid)
    (hc : ∃ c ∈ db.chains, c.id = cid)
    (s : Nat) (r0 : StorageRow) (hr0 : r0 ∈ db.contract_storage)
    (hr0a : r0.account_id = a.id) (hr0s : r0.slot = s)
    (hw1 : tTs < r0.valid_from) (hw2 : r0.valid_from ≤ sTs)
    (hmin : ∀ r ∈ db.contract_storage, r.account_id = a.id → r.slot = s →
      tTs < r.valid_from → r.valid_from ≤ sTs →
      r0.valid_from < r.valid_from ∨ (r0.valid_from = r.valid_from ∧ r0.ordinal ≤ r.ordinal)) :
    (a.id, s, r0.previous_value) ∈ slots_delta_rev_rows db cid tTs sTs := by
  have hL : (r0, a) ∈ ((storageAccountChainJoin db).filter (fun p =>
      decide (p.2.2.id = cid) && decide (tTs < p.1.valid_from) &&
      decide (p.1.valid_from ≤ sTs))).map (fun p => (p.1, p.2.1)) :=
    (rev_filtered_mem db cid tTs sTs (r0, a)).mpr
      ⟨hr0, ha, hr0a.symm, hac, hc, hw1, hw2⟩
  have hS : (r0, a) ∈ (((storageAccountChainJoin db).filter (fun p =>
      decide (p.2.2.id = cid) && decide (tTs < p.1.valid_from) &&
      decide (p.1.valid_from ≤ sTs))).map (fun p => (p.1, p.2.1))).insertionSort
        revSlotsOrder :=
    (List.perm_insertionSort revSlotsOrder _).mem_iff.mpr hL
  obtain ⟨q, hq, hqk⟩ := distinctOn_cover (fun p : StorageRow × AccountRow =>
    (p.2.id, p.1.slot)) _ [] (r0, a) hS (by simp)
  have hqS := distinctOnGo_subset (fun p : StorageRow × AccountRow => (p.2.id, p.1.slot)) _ _ q hq
  have hqL := (List.perm_insertionSort revSlotsOrder _).mem_iff.mp hqS
  obtain ⟨hqr, hqa, hqid, hqchain, -, hqw1, hqw2⟩ := (rev_filtered_mem db cid tTs sTs q).mp hqL
  have hqk1 : q.2.id = a.id := congrArg Prod.fst hqk
  have hqk2 : q.1.slot = r0.slot := congrArg Prod.snd hqk
  obtain ⟨-, hfind⟩ := distinctOnGo_find (fun p : StorageRow × AccountRow =>
    (p.2.id, p.1.slot)) _ [] q hq
  have hsorted := List.sorted_insertionSort revSlotsOrder
    (((storageAccountChainJoin db).filter (fun p =>
      decide (p.2.2.id = cid) && decide (tTs < p.1.valid_from) &&
      decide (p.1.valid_from ≤ sTs))).map (fun p => (p.1, p.2.1)))
  have hle := find?_min_of_sorted revSlotsOrder revSlotsOrder_refl _ hsorted _ q hfind
    (r0, a) hS (by
      simp only [decide_eq_true_eq]
      rw [← hqk]
      )
  have hq1min := hmin q.1 hqr (by omega) (by omega) hqw1 hqw2
  unfold revSlotsOrder at hle
  simp only at hle
  have hvf : q.1.valid_from = r0.valid_from ∧ q.1.ordinal = r0.ordinal := by omega
  have hq1 : q.1 = r0 :=
    huniqRow q.1 hqr r0 hr0 (by omega) (by omega) hvf.1 hvf.2
  simp only [slots_delta_rev_rows]
  refine List.mem_map.mpr ⟨q, hq, ?_⟩
  rw [hq1, hqk1, hr0s]

theorem exists_lex_min : ∀ (l : List StorageRow) (r : StorageRow), r ∈ l →
    ∃ m ∈ l, ∀ x ∈ l, m.valid_from < x.valid_from ∨
      (m.valid_from = x.valid_from ∧ m.ordinal ≤ x.ordinal) := by
  intro l
  induction l with
  | nil => intro r hr; simp at hr
  | cons y ys ih =>
    intro r _
    by_cases hys : ys = []
    · subst hys
      refine ⟨y, by simp, ?_⟩
      intro x hx
      rcases List.mem_cons.mp hx with rfl | hx'
      · omega
      · simp at hx'
    · obtain ⟨z, hz⟩ := List.exists_mem_of_ne_nil ys hys
      obtain ⟨m', hm', hall'⟩ := ih z hz
      by_cases hy : y.valid_from < m'.valid_from ∨
          (y.valid_from = m'.valid_from ∧ y.ordinal ≤ m'.ordinal)
      · refine ⟨y, by simp, ?_⟩
        intro x hx
        rcases List.mem_cons.mp hx with rfl | hx'
        · omega
        · have := hall' x hx'
          omega
      · refine ⟨m', List.mem_cons_of_mem y hm', ?_⟩
        intro x hx
        rcases List.mem_cons.mp hx with rfl | hx'
        · omega
        · exact hall' x hx'

/-- C5: for a backward call `get_slots_delta(chain, S, V)` with
`S.ts > V.ts` (given as timestamps `sTs > tTs`), under row and account
uniqueness, the result maps each `(account, slot)` having a change with
`valid_from` in the window `(tTs, sTs]` to the `previous_value` of the
change with the smallest `(valid_from, ordinal)` in the window; and a slot
none of whose changes predate the window — one that did not exist at `V` —
maps to null (given delta coherence: a change with no predecessor version
carries a null `previous_value`). -/
theorem get_slots_delta_reverse_spec
    (gw : Chain → Int) (db : DbState) (now : Int) (chain : Chain)
    (sTs tTs : Int) (res : List (Nat × List (Nat × Option Nat)))
    (horder : tTs < sTs)
    (huniqAcc : ∀ a ∈ db.accounts, ∀ a' ∈ db.accounts, a.id = a'.id → a = a')
    (huniqAddr : ∀ a ∈ db.accounts, ∀ a' ∈ db.accounts, a.address = a'.address → a = a')
    (huniqRow : ∀ r ∈ db.contract_storage, ∀ r' ∈ db.contract_storage,
      r.account_id = r'.account_id → r.slot = r'.slot → r.valid_from = r'.valid_from →
      r.ordinal = r'.ordinal → r = r')
    (hres : get_slots_delta gw db now chain (some (.timestamp sTs)) (.timestamp tTs) = .ok res)
    (a : AccountRow) (ha : a ∈ db.accounts) (hac : a.chain_id = gw chain)
    (hcex : ∃ c ∈ db.chains, c.id = gw chain) (s : Nat) :
    (∀ r0 ∈ db.contract_storage, r0.account_id = a.id → r0.slot = s →
      tTs < r0.valid_from → r0.valid_from ≤ sTs →
      (∀ r ∈ db.contract_storage, r.account_id = a.id → r.slot = s →
        tTs < r.valid_from → r.valid_from ≤ sTs →
        r0.valid_from < r.valid_from ∨
          (r0.valid_from = r.valid_from ∧ r0.ordinal ≤ r.ordinal)) →
      storeLookup res a.address s = some r0.previous_value) ∧
    ((∃ r ∈ db.contract_storage, r.account_id = a.id ∧ r.slot = s ∧
        tTs < r.valid_from ∧ r.valid_from ≤ sTs) →
      (∀ r ∈ db.contract_storage, r.account_id = a.id → r.slot = s → tTs < r.valid_from) →
      (∀ r ∈ db.contract_storage,
        (∀ r' ∈ db.contract_storage, r'.account_id = r.account_id → r'.slot = r.slot →
          (r'.valid_from < r.valid_from ∨
            (r'.valid_from = r.valid_from ∧ r'.ordinal < r.ordinal)) → False) →
        r.previous_value = none) →
      storeLookup res a.address s = some none) := by
  simp only [get_slots_delta, coerce_block_or_ts] at hres
  rw [if_neg (by omega : ¬sTs ≤ tTs)] at hres
  set changed := slots_delta_rev_rows db (gw chain) tTs sTs with hchanged
  set addresses := hmOfList ((db.accounts.filter
      (fun a' => changed.any (fun t => decide (t.1 = a'.id)))).map
    (fun a' => (a'.id, a'.address))) with haddresses
  have haddr : ∀ a' ∈ db.accounts, changed.any (fun t => decide (t.1 = a'.id)) = true →
      hmLookup addresses a'.id = some a'.address := by
    intro a' ha' hany
    rw [haddresses, hmLookup_hmOfList]
    refine lastVal_unique_binding _ _ _ ?_ ?_
    · exact List.mem_map.mpr ⟨a', List.mem_filter.mpr ⟨ha', hany⟩, rfl⟩
    · intro p hp hpk
      obtain ⟨a2, ha2, hpe⟩ := List.mem_map.mp hp
      have ha2in := List.mem_of_mem_filter ha2
      subst hpe
      simp only at hpk ⊢
      rw [huniqAcc a2 ha2in a' ha' hpk]
  have hall : ∀ t ∈ changed, (hmLookup addresses t.1).isSome = true := by
    intro t ht
    obtain ⟨q, ⟨-, hq2, -, -, -, -⟩, hqt⟩ :=
      slots_delta_rev_rows_mem db (gw chain) tTs sTs t ht
    have h1 : t.1 = q.2.id := by rw [hqt]
    rw [h1, haddr q.2 hq2 (List.any_eq_true.mpr ⟨t, ht, by rw [h1]; simp⟩)]
    rfl
  simp only [construct_account_to_contract_store] at hres
  obtain ⟨m, hm, hchar⟩ := cacsGo_lookup addresses changed [] hall
  rw [hm] at hres
  simp only [Except.ok.injEq] at hres
  have hmain : ∀ r0 ∈ db.contract_storage, r0.account_id = a.id → r0.slot = s →
      tTs < r0.valid_from → r0.valid_from ≤ sTs →
      (∀ r ∈ db.contract_storage, r.account_id = a.id → r.slot = s →
        tTs < r.valid_from → r.valid_from ≤ sTs →
        r0.valid_from < r.valid_from ∨
          (r0.valid_from = r.valid_from ∧ r0.ordinal ≤ r.ordinal)) →
      storeLookup m a.address s = some r0.previous_value := by
    intro r0 hr0 hr0a hr0s hw1 hw2 hmin
    have hmem := slots_delta_rev_rows_min db (gw chain) tTs sTs huniqRow a ha hac hcex
      s r0 hr0 hr0a hr0s hw1 hw2 hmin
    have hkeys := slots_delta_rev_rows_keys db (gw chain) tTs sTs
    have hc0 : hmLookup addresses a.id = some a.address :=
      haddr a ha (List.any_eq_true.mpr ⟨(a.id, s, r0.previous_value), hmem, by simp⟩)
    have hinj : ∀ t ∈ changed, hmLookup addresses t.1 = some a.address →
        t.2.1 = s → t.1 = a.id := by
      intro t ht hlook _
      obtain ⟨q, ⟨-, hq2, -, -, -, -⟩, hqt⟩ :=
        slots_delta_rev_rows_mem db (gw chain) tTs sTs t ht
      have h1 : t.1 = q.2.id := by rw [hqt]
      rw [h1, haddr q.2 hq2 (List.any_eq_true.mpr ⟨t, ht, by rw [h1]; simp⟩)] at hlook
      simp only [Option.some.injEq] at hlook
      rw [h1, huniqAddr q.2 hq2 a ha hlook]
    have hlt := lastTriple_unique addresses changed a.address s a.id r0.previous_value
      hkeys hmem hc0 hinj
    rw [hchar a.address s, hlt]
  constructor
  · intro r0 hr0 hr0a hr0s hw1 hw2 hmin
    rw [← hres]
    exact hmain r0 hr0 hr0a hr0s hw1 hw2 hmin
  · rintro ⟨r, hrmem, hra, hrs, hw1, hw2⟩ hallvf hpv
    have hrW : r ∈ db.contract_storage.filter (fun x =>
        decide (x.account_id = a.id) && decide (x.slot = s) &&
        decide (tTs < x.valid_from) && decide (x.valid_from ≤ sTs)) :=
      List.mem_filter.mpr ⟨hrmem, by simp [hra, hrs, hw1, hw2]⟩
    obtain ⟨m0, hm0W, hm0all⟩ := exists_lex_min _ r hrW
    obtain ⟨hm0mem, hm0flags⟩ := List.mem_filter.mp hm0W
    simp only [Bool.and_eq_true, decide_eq_true_eq] at hm0flags
    have hmin0 : ∀ x ∈ db.contract_storage, x.account_id = a.id → x.slot = s →
        tTs < x.valid_from → x.valid_from ≤ sTs →
        m0.valid_from < x.valid_from ∨
          (m0.valid_from = x.valid_from ∧ m0.ordinal ≤ x.ordinal) := by
      intro x hx h1 h2 h3 h4
      exact hm0all x (List.mem_filter.mpr ⟨hx, by simp [h1, h2, h3, h4]⟩)
    have hlook := hmain m0 hm0mem hm0flags.1.1.1 hm0flags.1.1.2 hm0flags.1.2 hm0flags.2 hmin0
    have hnone : m0.previous_value = none := by
      refine hpv m0 hm0mem ?_
      intro r' hr' h1 h2 h3
      have h4 : tTs < r'.valid_from := by
         refine hallvf r' hr' (by omega) (by omega)
      have h5 : r'.valid_from ≤ sTs := by
        have := hm0flags.2
        omega
      have := hmin0 r' hr' (by omega) (by omega) h4 h5
      omega
    rw [← hres, hlook, hnone]

/-- Chain-id cache of the C5 witness. -/
def c5gw : Chain → Int
  | _ => 1

/-- The account of the C5 witness fixture. -/
def c5acc : AccountRow := ⟨1, 1, 50, "c0", some 1, some 0, none, none⟩

/-- The C5 witness fixture: the spec's slots-delta scenario. Contract c0
writes slots 0, 1, 2 in block 1 (`ts = 0`) and slots 0, 1, 5, 6 in block 2
(`ts = 3600`); the block-2 rows carry the previous values of slots 0 and 1
and null for the freshly created slots 5 and 6. -/
def c5db : DbState where
  chains := [⟨1, .ethereum⟩]
  blocks := [⟨1, 100, 99, 1, true, 1, 0⟩, ⟨2, 101, 100, 1, true, 2, 3600⟩]
  transactions := [⟨1, 200, 1, 1⟩, ⟨2, 201, 2, 1⟩]
  accounts := [⟨1, 1, 50, "c0", some 1, some 0, none, none⟩]
  account_balances := []
  contract_codes := []
  contract_storage :=
    [⟨1, 0, some 1, none, 1, 0, 0, none⟩,
     ⟨1, 1, some 5, none, 1, 1, 0, none⟩,
     ⟨1, 2, some 1, none, 1, 2, 0, none⟩,
     ⟨1, 0, some 2, some 1, 2, 0, 3600, none⟩,
     ⟨1, 1, some 3, some 5, 2, 1, 3600, none⟩,
     ⟨1, 5, some 25, none, 2, 2, 3600, none⟩,
     ⟨1, 6, some 30, none, 2, 3, 3600, none⟩]
  protocol_components := []
  protocol_states := []
  component_balances := []
  protocol_calls_contract := []

/-- The expected backward delta of the C5 witness: previous values of the
first writes in the window, null for slots that did not exist at `V`. -/
def c5res : List (Nat × List (Nat × Option Nat)) :=
  [(50, [(0, some 1), (1, some 5), (5, none), (6, none)])]

/-- The window-minimal change of slot 0 in the C5 witness. -/
def c5r0 : StorageRow := ⟨1, 0, some 2, some 1, 2, 0, 3600, none⟩

/-- Witness for C5 on the spec's fixture: the reverse delta maps slot 0 to
`previous_value = 1` (the first in-window write's previous value) and the
freshly created slot 5 to null. -/
theorem get_slots_delta_reverse_spec_witness :
    get_slots_delta c5gw c5db 9999 .ethereum (some (.timestamp 7200)) (.timestamp 0)
      = .ok c5res ∧
    storeLookup c5res 50 0 = some (some 1) ∧
    storeLookup c5res 50 5 = some none := by
  refine ⟨rfl, ?_, ?_⟩
  · exact (get_slots_delta_reverse_spec c5gw c5db 9999 .ethereum 7200 0 c5res
      (by decide) (by decide) (by decide) (by decide) rfl c5acc (by decide) rfl
      ⟨⟨1, .ethereum⟩, by decide, rfl⟩ 0).1
      c5r0 (by decide) rfl rfl (by decide) (by decide) (by decide)
  · exact (get_slots_delta_reverse_spec c5gw c5db 9999 .ethereum 7200 0 c5res
      (by decide) (by decide) (by decide) (by decide) rfl c5acc (by decide) rfl
      ⟨⟨1, .ethereum⟩, by decide, rfl⟩ 5).2
      ⟨⟨1, 5, some 25, none, 2, 2, 3600, none⟩, by decide, rfl, rfl, by decide, by decide⟩
      (by decide) (by decide)

end Tycho
